import Mathlib

/-!
Verification of the watch-cache specification against a shallow embedding of
the `cacher` package.  The repository sample contains the watch-cache test
files (`watch_cache_test.go` and the delegator/list-path tests); the
implementation they exercise (`watch_cache.go` and the client-go store) is not
part of the sample, so it is modelled from the specification, with the test
files in the sample serving as the authority for every behaviour they pin
down.  Test-local logic that does appear in the sample (the simulated
`listFunc` routing condition, `mockCacheDelegator.GetList`, the pod/test
helpers) is embedded directly from that source.
-/

namespace WatchCacheSpec

/-- Modelled from the spec: the raw object of the data model.  The sampled
tests build `v1.Pod` objects through `makeTestPodDetails`; only the fields the
watch cache reads (name, namespace, resource version, node name, labels) are
represented. -/
structure Pod where
  name : String
  nameSpace : String
  resourceVersion : Nat
  nodeName : String
  labels : List (String × String)
deriving DecidableEq

/-- Embedded from `makeTestPodDetails` in the sampled test file. -/
def makeTestPodDetails (name : String) (resourceVersion : Nat) (nodeName : String)
    (labels : List (String × String)) : Pod :=
  { name := name, nameSpace := "ns", resourceVersion := resourceVersion,
    nodeName := nodeName, labels := labels }

/-- Embedded from `makeTestPod` in the sampled test file. -/
def makeTestPod (name : String) (resourceVersion : Nat) : Pod :=
  makeTestPodDetails name resourceVersion "some-node" [("k8s-app", "my-app")]

/-- Modelled from the spec: `StoreElement` — immutable snapshot of one object
with its extracted label and field attribute sets (the test attribute
extractor yields the pod labels and the single field `spec.nodeName`). -/
structure storeElement where
  key : String
  object : Pod
  labels : List (String × String)
  fields : List (String × String)
deriving DecidableEq

/-- Modelled from the spec: the key function of the tests,
`storage.NamespaceKeyFunc("prefix", obj)`. -/
def podKey (p : Pod) : String :=
  "prefix/" ++ p.nameSpace ++ "/" ++ p.name

/-- Embedded from `makeTestStoreElement` / the test `getAttrsFunc`: the
element stored for a pod, with extracted labels and the `spec.nodeName`
field. -/
def makeStoreElement (p : Pod) : storeElement :=
  { key := podKey p, object := p, labels := p.labels,
    fields := [("spec.nodeName", p.nodeName)] }

/-- Modelled from the spec: the change-event kinds `Added`, `Modified`,
`Deleted` carried by ring-buffer entries. -/
inductive WatchEventType where
  | added
  | modified
  | deleted
deriving DecidableEq

/-- Modelled from the spec: `ChangeEvent` (`watchCacheEvent`), carrying the
revision, the object, and the previous object if the key was present. -/
structure watchCacheEvent where
  eventType : WatchEventType
  object : Pod
  prevObject : Option Pod
  key : String
  resourceVersion : Nat
deriving DecidableEq

/-- Modelled from the spec: the caller-facing error taxonomy — `ErrTooOld`
(requested revision below the retained boundary), the timeout error carrying
the too-large-resource-version marker, `ErrResourceExpired`, and the
not-initialized error of an empty cache with no marker. -/
inductive StorageError where
  | tooOldResourceVersion
  | tooLargeResourceVersion
  | resourceExpired
  | notInitialized
deriving DecidableEq

/-- Modelled from the spec: `errors.IsTimeout` holds of the wait-budget
failure (which is raised as a timeout carrying the too-large marker). -/
def StorageError.isTimeoutError : StorageError → Bool
  | .tooLargeResourceVersion => true
  | _ => false

/-- Modelled from the spec: `storage.IsTooLargeResourceVersion` recognizes the
too-large-resource-version marker on the wait-budget failure. -/
def StorageError.isTooLargeResourceVersionMarker : StorageError → Bool
  | .tooLargeResourceVersion => true
  | _ => false

/-- Modelled from the spec: `errors.IsResourceExpired` / the "too old resource
version" condition. -/
def StorageError.isTooOldResourceVersion : StorageError → Bool
  | .tooOldResourceVersion => true
  | _ => false

/-- Association-list lookup used for label sets, field sets and selector
requirement sets (first binding of the key wins, as in a Go map image). -/
def alookup (l : List (String × String)) (k : String) : Option String :=
  (l.find? (fun kv => kv.1 == k)).map (fun kv => kv.2)

/-- Modelled from the spec: one secondary index — a mapping from extracted
value to the set of keys currently extracted to that value. -/
abbrev BucketMap := List (String × List String)

/-- Modelled from the spec: the keys currently stored in the bucket of an
extracted value (the empty set when the value has no bucket; the first
binding of a value is the bucket, as in a map image). -/
def bucketGet : BucketMap → String → List String
  | [], _ => []
  | e :: rest, v => if e.1 = v then e.2 else bucketGet rest v

/-- Modelled from the spec: remove a key from the bucket of one extracted
value (set removal, as in the client-go thread-safe store). -/
def bucketRemoveKey (bm : BucketMap) (v k : String) : BucketMap :=
  bm.map (fun e => if e.1 = v then (e.1, e.2.filter (fun x => x ≠ k)) else e)

/-- Modelled from the spec: insert a key into the bucket of one extracted
value, creating the bucket if absent (set insertion). -/
def bucketAddKey : BucketMap → String → String → BucketMap
  | [], v, k => [(v, [k])]
  | e :: rest, v, k =>
      if e.1 = v then (e.1, if e.2.contains k then e.2 else e.2 ++ [k]) :: rest
      else e :: bucketAddKey rest v k

/-- Modelled from the spec: remove a key from the buckets of all of its old
extracted values. -/
def removeKeyAll (bm : BucketMap) (k : String) (vals : List String) : BucketMap :=
  vals.foldl (fun b v => bucketRemoveKey b v k) bm

/-- Modelled from the spec: insert a key into the buckets of all of its new
extracted values. -/
def addKeyAll (bm : BucketMap) (k : String) (vals : List String) : BucketMap :=
  vals.foldl (fun b v => bucketAddKey b v k) bm

/-- Modelled from the spec: the per-index update performed on Add/Update —
the key is removed from its old extracted-value buckets and inserted into its
new ones. -/
def applyUpsert (bm : BucketMap) (k : String) (oldVals newVals : List String) : BucketMap :=
  addKeyAll (removeKeyAll bm k oldVals) k newVals

/-- Modelled from the spec: the extractor of the registered label index
`l:label` of the sampled tests — the value of the label named `label`. -/
def extractLabelValue (p : Pod) : List String :=
  match alookup p.labels "label" with
  | some v => [v]
  | none => []

/-- Modelled from the spec: the extractor of the registered field index
`f:spec.nodeName` of the sampled tests — the pod's node name. -/
def extractNodeName (p : Pod) : List String :=
  [p.nodeName]

/-- Modelled from the spec: `Get` on the key-to-element snapshot mapping. -/
def storeLookup (st : List storeElement) (k : String) : Option storeElement :=
  st.find? (fun e => e.key == k)

/-- Modelled from the spec: `Delete` on the snapshot mapping. -/
def storeDelete (st : List storeElement) (k : String) : List storeElement :=
  st.filter (fun e => e.key != k)

/-- Modelled from the spec: `Add`/`Update` on the snapshot mapping — the
element replaces any element previously stored at its key. -/
def storeUpsert (st : List storeElement) (elem : storeElement) : List storeElement :=
  storeDelete st elem.key ++ [elem]

/-- Modelled from the spec: the watch-cache state (`watchCache`) — the event
ring (kept oldest first), the snapshot mapping with the two secondary indexes
registered by the sampled tests (`l:label`, `f:spec.nodeName`), the marker
revision of the last Replace (`listResourceVersion`), whether the ring has
discarded an event since that Replace, and the consistency-gate revision
(`resourceVersion`).  The dynamic capacity-resize and freshness-eviction
policies are not modelled: the sampled tests pin `lowerBoundCapacity` and
`upperBoundCapacity` to the configured capacity, and the spec declares the
resize heuristic a policy rather than a correctness requirement. -/
structure watchCache where
  capacity : Nat
  cache : List watchCacheEvent
  listResourceVersion : Nat
  removedEventSinceRelist : Bool
  resourceVersion : Nat
  store : List storeElement
  labelIndex : BucketMap
  nodeNameIndex : BucketMap

/-- Modelled from the spec: the empty cache created at initialization. -/
def initialCache (capacity : Nat) : watchCache :=
  { capacity := capacity, cache := [], listResourceVersion := 0,
    removedEventSinceRelist := false, resourceVersion := 0,
    store := [], labelIndex := [], nodeNameIndex := [] }

/-- Modelled from the spec: the change event built for one notification — the
previous object is the element currently stored at the key, if any. -/
def eventFor (s : watchCache) (t : WatchEventType) (p : Pod) : watchCacheEvent :=
  { eventType := t, object := p,
    prevObject := (storeLookup s.store (podKey p)).map (fun e => e.object),
    key := podKey p, resourceVersion := p.resourceVersion }

/-- Modelled from the spec: `Append` on the ring — when the ring is full the
oldest slot is discarded (advancing the boundary and recording that an event
has been removed since the last Replace); the gate revision then advances to
the event's revision. -/
def appendEvent (s : watchCache) (ev : watchCacheEvent) : watchCache :=
  if s.cache.length = s.capacity then
    { s with cache := s.cache.tail ++ [ev], removedEventSinceRelist := true,
             resourceVersion := ev.resourceVersion }
  else
    { s with cache := s.cache ++ [ev], resourceVersion := ev.resourceVersion }

/-- Modelled from the spec: the snapshot-and-index mutation of an Add/Update
notification (no event handling). -/
def upsertElement (s : watchCache) (p : Pod) : watchCache :=
  let elem := makeStoreElement p
  let oldObj := (storeLookup s.store elem.key).map (fun e => e.object)
  { s with store := storeUpsert s.store elem,
           labelIndex := applyUpsert s.labelIndex elem.key
             ((oldObj.map extractLabelValue).getD []) (extractLabelValue p),
           nodeNameIndex := applyUpsert s.nodeNameIndex elem.key
             ((oldObj.map extractNodeName).getD []) (extractNodeName p) }

/-- Modelled from the spec: the snapshot-and-index mutation of a Delete
notification. -/
def deleteElement (s : watchCache) (p : Pod) : watchCache :=
  let k := podKey p
  let oldObj := (storeLookup s.store k).map (fun e => e.object)
  { s with store := storeDelete s.store k,
           labelIndex := removeKeyAll s.labelIndex k ((oldObj.map extractLabelValue).getD []),
           nodeNameIndex := removeKeyAll s.nodeNameIndex k ((oldObj.map extractNodeName).getD []) }

/-- Modelled from the spec: `processEvent` of the replication sink — build the
change event against the current snapshot, append it to the ring, then mutate
the snapshot and every secondary index, and advance the gate revision. -/
def processOp (s : watchCache) (t : WatchEventType) (p : Pod) : watchCache :=
  let s1 := appendEvent s (eventFor s t p)
  match t with
  | .deleted => deleteElement s1 p
  | _ => upsertElement s1 p

/-- Modelled from the spec: `Replace` — the snapshot and all indexes are
rebuilt from scratch, the ring is cleared, and the Replace revision becomes
both the gate revision and the still-present marker revision. -/
def replaceAll (s : watchCache) (items : List Pod) (rv : Nat) : watchCache :=
  let cleared : watchCache :=
    { s with cache := [], listResourceVersion := rv, removedEventSinceRelist := false,
             resourceVersion := rv, store := [], labelIndex := [], nodeNameIndex := [] }
  items.foldl (fun t p => upsertElement t p) cleared

/-- Modelled from the spec: the ordered notifications consumed by the
replication sink (`Add`, `Update`, `Delete`, `Replace`, and the bookmark-only
`UpdateResourceVersion`). -/
inductive Op where
  | add (p : Pod)
  | update (p : Pod)
  | delete (p : Pod)
  | replace (items : List Pod) (rv : Nat)
  | bookmark (rv : Nat)

/-- Modelled from the spec: the revision a notification carries. -/
def opRev : Op → Nat
  | .add p => p.resourceVersion
  | .update p => p.resourceVersion
  | .delete p => p.resourceVersion
  | .replace _ rv => rv
  | .bookmark rv => rv

/-- Modelled from the spec: the revisions of the notifications that append a
change event to the ring (Replace and bookmarks append none). -/
def appendedRevs (ops : List Op) : List Nat :=
  ops.filterMap (fun op =>
    match op with
    | .add p => some p.resourceVersion
    | .update p => some p.resourceVersion
    | .delete p => some p.resourceVersion
    | _ => none)

/-- Modelled from the spec: processing of one ordered notification by the
single-writer replication sink. -/
def step (s : watchCache) : Op → watchCache
  | .add p => processOp s .added p
  | .update p => processOp s .modified p
  | .delete p => processOp s .deleted p
  | .replace items rv => replaceAll s items rv
  | .bookmark rv => { s with resourceVersion := rv }

/-- Modelled from the spec: the cache state after ingesting an ordered
notification sequence into an empty cache of the given capacity. -/
def execOps (capacity : Nat) (ops : List Op) : watchCache :=
  ops.foldl step (initialCache capacity)

/-- Modelled from the spec: the oldest revision a watcher may still be served
from — one past the still-present Replace marker when no event has been
discarded since the Replace, and otherwise the revision of the oldest
retained event (0 is never reached on an initialized cache). -/
def oldestValue (s : watchCache) : Nat :=
  if 0 < s.listResourceVersion ∧ s.removedEventSinceRelist = false then
    s.listResourceVersion + 1
  else
    match s.cache.head? with
    | some e => e.resourceVersion
    | none => 0

/-- Modelled from the spec: `EventsSince` (`getAllEventsSinceLocked` followed
by draining the interval) — fails with `ErrTooOld` when the requested
revision is more than one below the oldest servable revision, fails when the
cache holds neither events nor a marker, and otherwise yields every retained
event with revision strictly above the request, in ring order.  The
binary-search location of the first event past the request on the
revision-sorted ring is rendered as `dropWhile`. -/
def eventsSince (s : watchCache) (rv : Nat) : Except StorageError (List watchCacheEvent) :=
  if (0 < s.listResourceVersion ∧ s.removedEventSinceRelist = false) ∨ s.cache ≠ [] then
    if rv + 1 < oldestValue s then .error .tooOldResourceVersion
    else .ok (s.cache.dropWhile (fun e => e.resourceVersion ≤ rv))
  else .error .notInitialized

/-- Modelled from the spec: the selection predicate of a LIST request — the
exact-match requirement sets of its label and field selectors, and the index
hints naming which labels/fields have registered indexes. -/
structure SelPred where
  labelSel : List (String × String)
  fieldSel : List (String × String)
  indexLabels : List String
  indexFields : List String
deriving DecidableEq

/-- Modelled from the spec: `storage.Everything` — no requirements, no index
hints. -/
def everythingPred : SelPred :=
  { labelSel := [], fieldSel := [], indexLabels := [], indexFields := [] }

/-- Modelled from the spec: whether an element satisfies the predicate —
every exact-match requirement of the label selector holds of the extracted
labels and every field requirement holds of the extracted fields. -/
def matchesPred (pred : SelPred) (e : storeElement) : Bool :=
  pred.labelSel.all (fun kv => alookup e.labels kv.1 == some kv.2) &&
  pred.fieldSel.all (fun kv => alookup e.fields kv.1 == some kv.2)

/-- Modelled from the spec: the name of the secondary index derived from a
label. -/
def labelIndexName (l : String) : String := "l:" ++ l

/-- Modelled from the spec: the name of the secondary index derived from a
field. -/
def fieldIndexName (f : String) : String := "f:" ++ f

/-- Modelled from the spec: `MatcherIndex` — for each hinted label (labels
first, per the label-over-field tie-break) and then each hinted field whose
selector pins it to an exact value, the candidate (index name, pinned value)
pair. -/
def matchValues (pred : SelPred) : List (String × String) :=
  pred.indexLabels.filterMap
      (fun l => (alookup pred.labelSel l).map (fun v => (labelIndexName l, v)))
    ++ pred.indexFields.filterMap
      (fun f => (alookup pred.fieldSel f).map (fun v => (fieldIndexName f, v)))

/-- Modelled from the spec: whether a secondary index of the given name is
registered (the sampled tests register `l:label` and `f:spec.nodeName`). -/
def hasIndex (name : String) : Bool :=
  name == "l:label" || name == "f:spec.nodeName"

/-- Modelled from the spec: the bucket of a registered index for a pinned
value. -/
def bucketKeysFor (s : watchCache) (name v : String) : List String :=
  if name = "l:label" then bucketGet s.labelIndex v
  else if name = "f:spec.nodeName" then bucketGet s.nodeNameIndex v
  else []

/-- Modelled from the spec: the registered extractor behind an index name. -/
def indexExtractor (name : String) : Option (Pod → List String) :=
  if name = "l:label" then some extractLabelValue
  else if name = "f:spec.nodeName" then some extractNodeName
  else none

/-- Modelled from the spec: the serving half of `WaitUntilFreshAndList` — the
first candidate (index, value) pair naming a registered index selects that
index's bucket, whose members are returned with the index name recorded;
otherwise every element is returned from a full scan with an empty
`indexUsed`.  The remaining selectors of the predicate are not evaluated by
this operation. -/
def listItems (s : watchCache) (pred : SelPred) : List storeElement × String :=
  match (matchValues pred).find? (fun mv => hasIndex mv.1) with
  | some mv => (s.store.filter (fun e => (bucketKeysFor s mv.1 mv.2).contains e.key), mv.1)
  | none => (s.store, "")

/-- Modelled from the spec: the `{items, resourceVersion}` result envelope of
a LIST served from the cache. -/
structure listResp where
  items : List storeElement
  resourceVersion : Nat
deriving DecidableEq

/-- Modelled from the spec: `WaitUntilFreshAndList` — the consistency gate
blocks until the known revision reaches the target; in this embedding the
state is the one observed when the wait completes, so a state whose revision
has reached the target serves the listing at that revision, and a wait whose
budget elapses first fails with the timeout error carrying the
too-large-resource-version marker. -/
def waitUntilFreshAndList (s : watchCache) (target : Nat) (pred : SelPred) :
    Except StorageError (listResp × String) :=
  if target ≤ s.resourceVersion then
    .ok ({ items := (listItems s pred).1, resourceVersion := s.resourceVersion },
         (listItems s pred).2)
  else .error .tooLargeResourceVersion

/-- Modelled from the spec: `WaitUntilFreshAndGet` — after the gate releases
the waiter, a point lookup against the snapshot together with the revision
observed. -/
def waitUntilFreshAndGet (s : watchCache) (target : Nat) (k : String) :
    Except StorageError (Option storeElement × Nat) :=
  if target ≤ s.resourceVersion then .ok (storeLookup s.store k, s.resourceVersion)
  else .error .tooLargeResourceVersion

/-- Numeric value of a decimal digit string. -/
def digitsValue (l : List Char) : Nat :=
  l.foldl (fun a c => a * 10 + (c.toNat - 48)) 0

/-- Embedded from the sampled test's `strconv.ParseInt(s, 10, 64)` call,
following Go semantics: the result is the parsed value paired with whether an
error was reported.  A syntax error yields value 0; a value outside the
signed 64-bit range yields the clamped bound (`ErrRange`); the test discards
the error and keeps the value. -/
def goParseInt64 (s : String) : Int × Bool :=
  let parts :=
    match s.data with
    | '+' :: r => (false, r)
    | '-' :: r => (true, r)
    | r => (false, r)
  let neg := parts.1
  let ds := parts.2
  if ds ≠ [] ∧ ds.all (fun c => c.isDigit) then
    let n : Nat := digitsValue ds
    if neg then
      if 2 ^ 63 < n then (-(2 ^ 63 : Int), true) else (-(n : Int), false)
    else
      if 2 ^ 63 ≤ n then ((2 ^ 63 : Int) - 1, true) else ((n : Int), false)
  else (0, true)

/-- Embedded from the sampled tests: the fields of `storage.ListOptions` the
simulated list function reads — the raw resource-version string and the
predicate's limit and continuation token. -/
structure goListOptions where
  resourceVersion : String
  limit : Int
  continueToken : String
deriving DecidableEq

/-- Embedded from `TestNegativeResourceVersionList`: the revision handed to
the list function — the parse error is discarded and only strictly positive
parsed values survive. -/
def simulatedRequestRevision (s : String) : Nat :=
  let rv := (goParseInt64 s).1
  if 0 < rv then rv.toNat else 0

/-- The two serving paths distinguished by the sampled list-path tests. -/
inductive ListPath where
  | exactRV
  | latestRV
deriving DecidableEq

/-- Embedded from the sampled tests' `listFunc`, which simulates the routing
condition of `watch_cache.go`: the exact-revision (snapshot) path is taken
exactly when a positive limit is set, the requested resource-version string
is non-empty and not "0", the `ListFromCacheSnapshot` feature gate is
enabled, and the parsed revision is positive; every other request takes the
latest-revision path. -/
def simulatedListFunc (listFromCacheSnapshot : Bool) (opts : goListOptions) : ListPath :=
  if 0 < opts.limit ∧ 0 < opts.resourceVersion.length ∧ opts.resourceVersion ≠ "0"
      ∧ listFromCacheSnapshot = true
      ∧ 0 < simulatedRequestRevision opts.resourceVersion then
    .exactRV
  else .latestRV

/-- Embedded from the spec's error taxonomy: `errors.IsResourceExpired`. -/
def StorageError.isResourceExpired : StorageError → Bool
  | .resourceExpired => true
  | _ => false

/-- Embedded from `mockCacheDelegator.GetList` in the sampled source: the
cacher is consulted first; on a ResourceExpired failure with the
`ListFromCacheSnapshot` feature enabled the request is retried against the
authoritative store, and otherwise the cacher's outcome is returned as is.
The second component records whether the authoritative store was called. -/
def mockCacheDelegatorGetList (listFromCacheSnapshot : Bool)
    (cacherGetList storageGetList : Except StorageError Unit) :
    Except StorageError Unit × Bool :=
  match cacherGetList with
  | .error e =>
      if e.isResourceExpired = true ∧ listFromCacheSnapshot = true then (storageGetList, true)
      else (.error e, false)
  | .ok _ => (.ok (), false)

/-! Membership lemmas for bucket maps. -/

theorem bucketGet_removeKey (u k v : String) :
    ∀ bm : BucketMap, bucketGet (bucketRemoveKey bm u k) v =
      if v = u then (bucketGet bm v).filter (fun x => x ≠ k) else bucketGet bm v
  | [] => by simp [bucketRemoveKey, bucketGet]
  | e :: rest => by
      have ih := bucketGet_removeKey u k v rest
      by_cases h1 : e.1 = v
      · by_cases h2 : v = u
        · simp [bucketRemoveKey, bucketGet, h1, h2, h1.trans h2]
        · have : ¬ e.1 = u := fun h => h2 (h1 ▸ h)
          simp [bucketRemoveKey, bucketGet, h1, h2, this]
      · by_cases h2 : e.1 = u
        · simp only [bucketRemoveKey, List.map_cons, if_pos h2, bucketGet, if_neg h1]
          rw [← bucketRemoveKey, ih]
        · simp only [bucketRemoveKey, List.map_cons, if_neg h2, bucketGet, if_neg h1]
          rw [← bucketRemoveKey, ih]

theorem mem_insertKeySet (l : List String) (k x : String) :
    x ∈ (if l.contains k then l else l ++ [k]) ↔ x ∈ l ∨ x = k := by
  by_cases h : l.contains k
  · rw [if_pos h]
    constructor
    · exact fun hx => Or.inl hx
    · rintro (hx | rfl)
      · exact hx
      · exact List.mem_of_elem_eq_true h
  · rw [if_neg h]
    simp [List.mem_append]

theorem mem_bucketGet_addKey (u k x v : String) :
    ∀ bm : BucketMap,
      x ∈ bucketGet (bucketAddKey bm u k) v ↔ x ∈ bucketGet bm v ∨ (v = u ∧ x = k)
  | [] => by
      by_cases h : u = v
      · subst h; simp [bucketAddKey, bucketGet]
      · have hvu : ¬ v = u := fun hh => h hh.symm
        simp [bucketAddKey, bucketGet, h, hvu]
  | e :: rest => by
      have ih := mem_bucketGet_addKey u k x v rest
      by_cases h2 : e.1 = u
      · by_cases h1 : e.1 = v
        · have hvu : v = u := h1 ▸ h2
          simp only [bucketAddKey, if_pos h2, bucketGet, if_pos h1, hvu, true_and]
          exact mem_insertKeySet e.2 k x
        · have hvu : ¬ v = u := fun h => h1 (h2.trans h.symm)
          have huv : ¬ u = v := fun h => hvu h.symm
          simp [bucketAddKey, bucketGet, h1, h2, hvu, huv]
      · by_cases h1 : e.1 = v
        · have hvu : ¬ v = u := fun h => h2 (h1.trans h)
          simp [bucketAddKey, bucketGet, h1, h2, hvu]
        · simp only [bucketAddKey, if_neg h2, bucketGet, if_neg h1]
          exact ih

theorem mem_bucketGet_removeKeyAll (k x v : String) :
    ∀ (vals : List String) (bm : BucketMap),
      x ∈ bucketGet (removeKeyAll bm k vals) v ↔
        x ∈ bucketGet bm v ∧ ¬(x = k ∧ v ∈ vals)
  | [], bm => by simp [removeKeyAll]
  | u :: vals, bm => by
      have ih := mem_bucketGet_removeKeyAll k x v vals (bucketRemoveKey bm u k)
      have hstep : removeKeyAll bm k (u :: vals) = removeKeyAll (bucketRemoveKey bm u k) k vals := rfl
      rw [hstep, ih, bucketGet_removeKey]
      by_cases hvu : v = u
      · rw [if_pos hvu]
        simp only [List.mem_filter, List.mem_cons, ne_eq, decide_eq_true_eq]
        constructor
        · rintro ⟨⟨hx, hne⟩, _⟩
          exact ⟨hx, fun hp => hne hp.1⟩
        · rintro ⟨hx, hno⟩
          have hxk : ¬ x = k := fun hxk => hno ⟨hxk, Or.inl hvu⟩
          exact ⟨⟨hx, hxk⟩, fun hp => hxk hp.1⟩
      · rw [if_neg hvu]
        simp only [List.mem_cons]
        constructor
        · rintro ⟨hx, hno⟩
          refine ⟨hx, ?_⟩
          rintro ⟨hxk, (hv | hv)⟩
          · exact hvu hv
          · exact hno ⟨hxk, hv⟩
        · rintro ⟨hx, hno⟩
          exact ⟨hx, fun hp => hno ⟨hp.1, Or.inr hp.2⟩⟩

theorem mem_bucketGet_addKeyAll (k x v : String) :
    ∀ (vals : List String) (bm : BucketMap),
      x ∈ bucketGet (addKeyAll bm k vals) v ↔
        x ∈ bucketGet bm v ∨ (x = k ∧ v ∈ vals)
  | [], bm => by simp [addKeyAll]
  | u :: vals, bm => by
      have ih := mem_bucketGet_addKeyAll k x v vals (bucketAddKey bm u k)
      have hstep : addKeyAll bm k (u :: vals) = addKeyAll (bucketAddKey bm u k) k vals := rfl
      rw [hstep, ih, mem_bucketGet_addKey]
      simp only [List.mem_cons]
      constructor
      · rintro ((hx | ⟨hvu, hxk⟩) | ⟨hxk, hv⟩)
        · exact Or.inl hx
        · exact Or.inr ⟨hxk, Or.inl hvu⟩
        · exact Or.inr ⟨hxk, Or.inr hv⟩
      · rintro (hx | ⟨hxk, (hv | hv)⟩)
        · exact Or.inl (Or.inl hx)
        · exact Or.inl (Or.inr ⟨hv, hxk⟩)
        · exact Or.inr ⟨hxk, hv⟩

theorem mem_bucketGet_applyUpsert (bm : BucketMap) (k : String) (oldVals newVals : List String)
    (x v : String) :
    x ∈ bucketGet (applyUpsert bm k oldVals newVals) v ↔
      (x ∈ bucketGet bm v ∧ ¬(x = k ∧ v ∈ oldVals)) ∨ (x = k ∧ v ∈ newVals) := by
  unfold applyUpsert
  rw [mem_bucketGet_addKeyAll, mem_bucketGet_removeKeyAll]

/-! Lookup lemmas for the snapshot mapping. -/

theorem storeLookup_nil (x : String) : storeLookup [] x = none := rfl

theorem storeLookup_cons (e : storeElement) (rest : List storeElement) (x : String) :
    storeLookup (e :: rest) x = if e.key = x then some e else storeLookup rest x := by
  by_cases h : e.key = x <;> simp [storeLookup, List.find?_cons, h]

theorem storeLookup_append (l m : List storeElement) (x : String) :
    storeLookup (l ++ m) x = (storeLookup l x).or (storeLookup m x) := by
  unfold storeLookup
  exact List.find?_append

theorem storeDelete_nil (k : String) : storeDelete [] k = [] := rfl

theorem storeDelete_cons (e : storeElement) (rest : List storeElement) (k : String) :
    storeDelete (e :: rest) k =
      if e.key = k then storeDelete rest k else e :: storeDelete rest k := by
  by_cases h : e.key = k <;> simp [storeDelete, List.filter_cons, h]

theorem storeLookup_delete (k x : String) :
    ∀ st : List storeElement,
      storeLookup (storeDelete st k) x = if x = k then none else storeLookup st x
  | [] => by rw [storeDelete_nil, storeLookup_nil]; by_cases h : x = k <;> simp [h]
  | e :: rest => by
      have ih := storeLookup_delete k x rest
      rw [storeDelete_cons, storeLookup_cons]
      by_cases hek : e.key = k
      · rw [if_pos hek, ih]
        by_cases hxk : x = k
        · rw [if_pos hxk, if_pos hxk]
        · have hex : ¬ e.key = x := fun h => hxk (h ▸ hek ▸ rfl)
          rw [if_neg hxk, if_neg hxk, if_neg hex]
      · rw [if_neg hek, storeLookup_cons]
        by_cases hex : e.key = x
        · have hxk : ¬ x = k := fun h => hek (hex.trans h)
          rw [if_pos hex, if_neg hxk, if_pos hex]
        · rw [if_neg hex, if_neg hex, ih]

theorem storeLookup_upsert (st : List storeElement) (elem : storeElement) (x : String) :
    storeLookup (storeUpsert st elem) x =
      if x = elem.key then some elem else storeLookup st x := by
  unfold storeUpsert
  rw [storeLookup_append, storeLookup_delete]
  by_cases hx : x = elem.key
  · rw [if_pos hx, if_pos hx, storeLookup_cons, if_pos hx.symm, Option.none_or]
  · have hex : ¬ elem.key = x := fun h => hx h.symm
    rw [if_neg hx, if_neg hx, storeLookup_cons, if_neg hex, storeLookup_nil, Option.or_none]

theorem keysNodup_delete (st : List storeElement) (k : String)
    (h : (st.map (fun e => e.key)).Nodup) :
    ((storeDelete st k).map (fun e => e.key)).Nodup := by
  have hsub : List.Sublist (storeDelete st k) st := List.filter_sublist st
  exact h.sublist (hsub.map (fun e => e.key))

theorem keysNodup_upsert (st : List storeElement) (elem : storeElement)
    (h : (st.map (fun e => e.key)).Nodup) :
    ((storeUpsert st elem).map (fun e => e.key)).Nodup := by
  unfold storeUpsert
  rw [List.map_append]
  apply List.Nodup.append
  · exact keysNodup_delete st elem.key h
  · simp
  · intro a ha hb
    simp only [List.map_cons, List.map_nil, List.mem_singleton] at hb
    subst hb
    simp only [List.mem_map] at ha
    obtain ⟨e, he, hk⟩ := ha
    have : ¬ e.key = elem.key := by
      have := List.of_mem_filter he
      simpa using this
    exact this hk

theorem storeLookup_mem (st : List storeElement) (e : storeElement)
    (hnd : (st.map (fun a => a.key)).Nodup) (he : e ∈ st) :
    storeLookup st e.key = some e := by
  induction st with
  | nil => exact absurd he (List.not_mem_nil e)
  | cons a rest ih =>
      rcases List.mem_cons.mp he with rfl | hrest
      · simp [storeLookup, List.find?_cons]
      · have hnd2 : (rest.map (fun a => a.key)).Nodup := (List.nodup_cons.mp hnd).2
        have hne : ¬ a.key = e.key := by
          intro h
          have : a.key ∈ rest.map (fun a => a.key) := List.mem_map.mpr ⟨e, hrest, h.symm⟩
          exact (List.nodup_cons.mp hnd).1 this
        have hb : (a.key == e.key) = false := by simpa using hne
        simp only [storeLookup, List.find?_cons, hb]
        exact ih hnd2 hrest

/-- Invariant of one secondary index: a key is in the bucket of a value
exactly when the element currently stored at that key extracts to that
value. -/
def BMInv (ext : Pod → List String) (bm : BucketMap) (st : List storeElement) : Prop :=
  ∀ v x, x ∈ bucketGet bm v ↔
    ∃ e, storeLookup st x = some e ∧ v ∈ ext e.object

/-- Invariant of the snapshot-and-index state: keys are unique, every element
was produced by the attribute extractor, and both registered secondary
indexes agree with the snapshot. -/
structure storeInv (s : watchCache) : Prop where
  keysNodup : (s.store.map (fun e => e.key)).Nodup
  canonical : ∀ e ∈ s.store, e = makeStoreElement e.object
  labelBM : BMInv extractLabelValue s.labelIndex s.store
  nodeBM : BMInv extractNodeName s.nodeNameIndex s.store

theorem BMInv_upsert (ext : Pod → List String) (bm : BucketMap) (st : List storeElement)
    (p : Pod) (hinv : BMInv ext bm st) :
    BMInv ext
      (applyUpsert bm (podKey p)
        ((((storeLookup st (podKey p)).map (fun e => e.object)).map ext).getD [])
        (ext p))
      (storeUpsert st (makeStoreElement p)) := by
  intro v x
  rw [mem_bucketGet_applyUpsert]
  have hkey : (makeStoreElement p).key = podKey p := rfl
  rw [show storeLookup (storeUpsert st (makeStoreElement p)) x =
      if x = podKey p then some (makeStoreElement p) else storeLookup st x from
    hkey ▸ storeLookup_upsert st (makeStoreElement p) x]
  by_cases hx : x = podKey p
  · rw [if_pos hx]
    subst hx
    cases hl : storeLookup st (podKey p) with
    | none =>
        constructor
        · rintro (⟨hbg, hno⟩ | ⟨_, hv⟩)
          · exact absurd ((hinv v (podKey p)).mp hbg) (by rw [hl]; rintro ⟨e, he, _⟩; cases he)
          · exact ⟨makeStoreElement p, rfl, hv⟩
        · rintro ⟨e, he, hv⟩
          cases he
          exact Or.inr ⟨rfl, hv⟩
    | some e0 =>
        constructor
        · rintro (⟨hbg, hno⟩ | ⟨_, hv⟩)
          · obtain ⟨e, he, hv⟩ := (hinv v (podKey p)).mp hbg
            rw [hl] at he
            cases he
            exact absurd ⟨rfl, by simpa [hl] using hv⟩ hno
          · exact ⟨makeStoreElement p, rfl, hv⟩
        · rintro ⟨e, he, hv⟩
          cases he
          exact Or.inr ⟨rfl, hv⟩
  · rw [if_neg hx]
    constructor
    · rintro (⟨hbg, _⟩ | ⟨hxk, _⟩)
      · exact (hinv v x).mp hbg
      · exact absurd hxk hx
    · intro hex
      exact Or.inl ⟨(hinv v x).mpr hex, fun hp => hx hp.1⟩

theorem BMInv_delete (ext : Pod → List String) (bm : BucketMap) (st : List storeElement)
    (k : String) (hinv : BMInv ext bm st) :
    BMInv ext
      (removeKeyAll bm k ((((storeLookup st k).map (fun e => e.object)).map ext).getD []))
      (storeDelete st k) := by
  intro v x
  rw [mem_bucketGet_removeKeyAll, storeLookup_delete]
  by_cases hx : x = k
  · rw [if_pos hx]
    subst hx
    constructor
    · rintro ⟨hbg, hno⟩
      obtain ⟨e, he, hv⟩ := (hinv v x).mp hbg
      exact absurd ⟨rfl, by simp [he]; exact hv⟩ hno
    · rintro ⟨e, he, _⟩
      cases he
  · rw [if_neg hx]
    constructor
    · rintro ⟨hbg, _⟩
      exact (hinv v x).mp hbg
    · intro hex
      exact ⟨(hinv v x).mpr hex, fun hp => hx hp.1⟩

theorem mem_storeDelete (st : List storeElement) (k : String) (e : storeElement) :
    e ∈ storeDelete st k ↔ e ∈ st ∧ ¬ e.key = k := by
  unfold storeDelete
  simp [List.mem_filter]

theorem mem_storeUpsert (st : List storeElement) (elem e : storeElement) :
    e ∈ storeUpsert st elem ↔ (e ∈ st ∧ ¬ e.key = elem.key) ∨ e = elem := by
  unfold storeUpsert
  simp [List.mem_append, mem_storeDelete]

theorem appendEvent_store (s : watchCache) (ev : watchCacheEvent) :
    (appendEvent s ev).store = s.store := by
  unfold appendEvent; split <;> rfl

theorem appendEvent_labelIndex (s : watchCache) (ev : watchCacheEvent) :
    (appendEvent s ev).labelIndex = s.labelIndex := by
  unfold appendEvent; split <;> rfl

theorem appendEvent_nodeNameIndex (s : watchCache) (ev : watchCacheEvent) :
    (appendEvent s ev).nodeNameIndex = s.nodeNameIndex := by
  unfold appendEvent; split <;> rfl

theorem appendEvent_capacity (s : watchCache) (ev : watchCacheEvent) :
    (appendEvent s ev).capacity = s.capacity := by
  unfold appendEvent; split <;> rfl

theorem appendEvent_listResourceVersion (s : watchCache) (ev : watchCacheEvent) :
    (appendEvent s ev).listResourceVersion = s.listResourceVersion := by
  unfold appendEvent; split <;> rfl

theorem appendEvent_resourceVersion (s : watchCache) (ev : watchCacheEvent) :
    (appendEvent s ev).resourceVersion = ev.resourceVersion := by
  unfold appendEvent; split <;> rfl

theorem storeInv_appendEvent (s : watchCache) (ev : watchCacheEvent)
    (h : storeInv s) : storeInv (appendEvent s ev) := by
  constructor
  · rw [appendEvent_store]; exact h.keysNodup
  · rw [appendEvent_store]; exact h.canonical
  · rw [appendEvent_store, appendEvent_labelIndex]; exact h.labelBM
  · rw [appendEvent_store, appendEvent_nodeNameIndex]; exact h.nodeBM

theorem storeInv_upsertElement (s : watchCache) (p : Pod)
    (h : storeInv s) : storeInv (upsertElement s p) := by
  constructor
  · exact keysNodup_upsert s.store (makeStoreElement p) h.keysNodup
  · intro e he
    rcases (mem_storeUpsert s.store (makeStoreElement p) e).mp he with ⟨hmem, _⟩ | rfl
    · exact h.canonical e hmem
    · rfl
  · exact BMInv_upsert extractLabelValue s.labelIndex s.store p h.labelBM
  · exact BMInv_upsert extractNodeName s.nodeNameIndex s.store p h.nodeBM

theorem storeInv_deleteElement (s : watchCache) (p : Pod)
    (h : storeInv s) : storeInv (deleteElement s p) := by
  constructor
  · exact keysNodup_delete s.store (podKey p) h.keysNodup
  · intro e he
    exact h.canonical e ((mem_storeDelete s.store (podKey p) e).mp he).1
  · exact BMInv_delete extractLabelValue s.labelIndex s.store (podKey p) h.labelBM
  · exact BMInv_delete extractNodeName s.nodeNameIndex s.store (podKey p) h.nodeBM

theorem storeInv_empty (s : watchCache) (hst : s.store = []) (hl : s.labelIndex = [])
    (hn : s.nodeNameIndex = []) : storeInv s := by
  constructor
  · rw [hst]; exact List.nodup_nil
  · intro e he; rw [hst] at he; exact absurd he (List.not_mem_nil e)
  · intro v x
    rw [hl, hst]
    unfold bucketGet
    constructor
    · intro hx; exact absurd hx (List.not_mem_nil x)
    · rintro ⟨e, he, _⟩; cases he
  · intro v x
    rw [hn, hst]
    unfold bucketGet
    constructor
    · intro hx; exact absurd hx (List.not_mem_nil x)
    · rintro ⟨e, he, _⟩; cases he

theorem storeInv_foldl_upsert :
    ∀ (items : List Pod) (s : watchCache), storeInv s →
      storeInv (items.foldl (fun t p => upsertElement t p) s)
  | [], s, h => h
  | p :: items, s, h =>
      storeInv_foldl_upsert items (upsertElement s p) (storeInv_upsertElement s p h)

theorem storeInv_step (s : watchCache) (op : Op) (h : storeInv s) :
    storeInv (step s op) := by
  cases op with
  | add p => exact storeInv_upsertElement _ p (storeInv_appendEvent _ _ h)
  | update p => exact storeInv_upsertElement _ p (storeInv_appendEvent _ _ h)
  | delete p => exact storeInv_deleteElement _ p (storeInv_appendEvent _ _ h)
  | replace items rv => exact storeInv_foldl_upsert items _ (storeInv_empty _ rfl rfl rfl)
  | bookmark rv =>
      constructor
      · exact h.keysNodup
      · exact h.canonical
      · exact h.labelBM
      · exact h.nodeBM

theorem storeInv_foldl_step :
    ∀ (ops : List Op) (s : watchCache), storeInv s → storeInv (ops.foldl step s)
  | [], _, h => h
  | op :: ops, s, h => storeInv_foldl_step ops (step s op) (storeInv_step s op h)

theorem storeInv_execOps (capacity : Nat) (ops : List Op) :
    storeInv (execOps capacity ops) :=
  storeInv_foldl_step ops (initialCache capacity) (storeInv_empty _ rfl rfl rfl)

/-! Projection lemmas for the ring-buffer fields of each mutation. -/

theorem upsertElement_ring (s : watchCache) (p : Pod) :
    (upsertElement s p).capacity = s.capacity ∧ (upsertElement s p).cache = s.cache ∧
    (upsertElement s p).listResourceVersion = s.listResourceVersion ∧
    (upsertElement s p).removedEventSinceRelist = s.removedEventSinceRelist ∧
    (upsertElement s p).resourceVersion = s.resourceVersion :=
  ⟨rfl, rfl, rfl, rfl, rfl⟩

theorem deleteElement_ring (s : watchCache) (p : Pod) :
    (deleteElement s p).capacity = s.capacity ∧ (deleteElement s p).cache = s.cache ∧
    (deleteElement s p).listResourceVersion = s.listResourceVersion ∧
    (deleteElement s p).removedEventSinceRelist = s.removedEventSinceRelist ∧
    (deleteElement s p).resourceVersion = s.resourceVersion :=
  ⟨rfl, rfl, rfl, rfl, rfl⟩

theorem processOp_capacity (s : watchCache) (t : WatchEventType) (p : Pod) :
    (processOp s t p).capacity = (appendEvent s (eventFor s t p)).capacity := by
  cases t <;> rfl

theorem processOp_cache (s : watchCache) (t : WatchEventType) (p : Pod) :
    (processOp s t p).cache = (appendEvent s (eventFor s t p)).cache := by
  cases t <;> rfl

theorem processOp_listResourceVersion (s : watchCache) (t : WatchEventType) (p : Pod) :
    (processOp s t p).listResourceVersion =
      (appendEvent s (eventFor s t p)).listResourceVersion := by
  cases t <;> rfl

theorem processOp_removed (s : watchCache) (t : WatchEventType) (p : Pod) :
    (processOp s t p).removedEventSinceRelist =
      (appendEvent s (eventFor s t p)).removedEventSinceRelist := by
  cases t <;> rfl

theorem processOp_resourceVersion (s : watchCache) (t : WatchEventType) (p : Pod) :
    (processOp s t p).resourceVersion =
      (appendEvent s (eventFor s t p)).resourceVersion := by
  cases t <;> rfl

theorem foldl_upsert_ring (t : watchCache) :
    ∀ items : List Pod,
      ((items.foldl (fun t p => upsertElement t p) t).capacity = t.capacity ∧
       (items.foldl (fun t p => upsertElement t p) t).cache = t.cache) ∧
      ((items.foldl (fun t p => upsertElement t p) t).listResourceVersion =
          t.listResourceVersion ∧
       (items.foldl (fun t p => upsertElement t p) t).removedEventSinceRelist =
          t.removedEventSinceRelist ∧
       (items.foldl (fun t p => upsertElement t p) t).resourceVersion = t.resourceVersion) := by
  intro items
  induction items generalizing t with
  | nil => exact ⟨⟨rfl, rfl⟩, rfl, rfl, rfl⟩
  | cons p items ih =>
      have h := ih (upsertElement t p)
      exact ⟨⟨h.1.1, h.1.2⟩, h.2.1, h.2.2.1, h.2.2.2⟩

/-- Invariant of the event ring along a well-formed ingestion history: `A` is
the set of revisions whose change events were ever appended. -/
structure cacheInv (A : List Nat) (s : watchCache) : Prop where
  capPos : 0 < s.capacity
  lenLe : s.cache.length ≤ s.capacity
  sorted : List.Pairwise (· < ·) (s.cache.map (fun e => e.resourceVersion))
  cacheSub : ∀ e ∈ s.cache, e.resourceVersion ∈ A
  rvUB : ∀ e ∈ s.cache, e.resourceVersion ≤ s.resourceVersion
  listLe : s.listResourceVersion ≤ s.resourceVersion
  aUB : ∀ a ∈ A, a ≤ s.resourceVersion
  aPos : ∀ a ∈ A, 0 < a
  listLtCache : 0 < s.listResourceVersion → s.removedEventSinceRelist = false →
    ∀ e ∈ s.cache, s.listResourceVersion < e.resourceVersion
  emptyFlag : s.cache = [] → s.removedEventSinceRelist = false
  emptyZero : s.cache = [] → s.listResourceVersion = 0 → A = []
  lostLow : ∀ b ∈ A, b ∉ s.cache.map (fun e => e.resourceVersion) → b < oldestValue s

theorem oldestValue_congr (s1 s2 : watchCache) (hcache : s2.cache = s1.cache)
    (hlist : s2.listResourceVersion = s1.listResourceVersion)
    (hflag : s2.removedEventSinceRelist = s1.removedEventSinceRelist) :
    oldestValue s2 = oldestValue s1 := by
  unfold oldestValue
  rw [hcache, hlist, hflag]

theorem cacheInv_congr (A : List Nat) (s1 s2 : watchCache) (h : cacheInv A s1)
    (hcap : s2.capacity = s1.capacity) (hcache : s2.cache = s1.cache)
    (hlist : s2.listResourceVersion = s1.listResourceVersion)
    (hflag : s2.removedEventSinceRelist = s1.removedEventSinceRelist)
    (hrv : s2.resourceVersion = s1.resourceVersion) : cacheInv A s2 := by
  constructor
  · rw [hcap]; exact h.capPos
  · rw [hcap, hcache]; exact h.lenLe
  · rw [hcache]; exact h.sorted
  · rw [hcache]; exact h.cacheSub
  · rw [hcache, hrv]; exact h.rvUB
  · rw [hlist, hrv]; exact h.listLe
  · rw [hrv]; exact h.aUB
  · exact h.aPos
  · rw [hlist, hflag, hcache]; exact h.listLtCache
  · rw [hcache, hflag]; exact h.emptyFlag
  · rw [hcache, hlist]; exact h.emptyZero
  · rw [hcache, oldestValue_congr s1 s2 hcache hlist hflag]; exact h.lostLow

theorem oldestValue_eq_marker (s : watchCache)
    (hcond : 0 < s.listResourceVersion ∧ s.removedEventSinceRelist = false) :
    oldestValue s = s.listResourceVersion + 1 := by
  unfold oldestValue; rw [if_pos hcond]

theorem oldestValue_eq_head (s : watchCache)
    (hcond : ¬(0 < s.listResourceVersion ∧ s.removedEventSinceRelist = false)) :
    oldestValue s = match s.cache.head? with
      | some e => e.resourceVersion
      | none => 0 := by
  unfold oldestValue; rw [if_neg hcond]

theorem oldestValue_set_evict (s : watchCache) (X : List watchCacheEvent) (r : Nat) :
    oldestValue { s with cache := X, removedEventSinceRelist := true,
                         resourceVersion := r } =
      match X.head? with
      | some e => e.resourceVersion
      | none => 0 := by
  unfold oldestValue
  simp

theorem oldestValue_set_append (s : watchCache) (X : List watchCacheEvent) (r : Nat) :
    oldestValue { s with cache := X, resourceVersion := r } =
      if 0 < s.listResourceVersion ∧ s.removedEventSinceRelist = false then
        s.listResourceVersion + 1
      else
        match X.head? with
        | some e => e.resourceVersion
        | none => 0 := by
  unfold oldestValue
  rfl

theorem cacheInv_appendEvent (A : List Nat) (s : watchCache) (ev : watchCacheEvent)
    (h : cacheInv A s) (hrev : s.resourceVersion < ev.resourceVersion) :
    cacheInv (A ++ [ev.resourceVersion]) (appendEvent s ev) := by
  have hallLt : ∀ e ∈ s.cache, e.resourceVersion < ev.resourceVersion :=
    fun e he => lt_of_le_of_lt (h.rvUB e he) hrev
  have htailsub : List.Sublist s.cache.tail s.cache := List.tail_sublist s.cache
  by_cases hfull : s.cache.length = s.capacity
  · have hs : appendEvent s ev =
        { s with cache := s.cache.tail ++ [ev], removedEventSinceRelist := true,
                 resourceVersion := ev.resourceVersion } := by
      unfold appendEvent; rw [if_pos hfull]
    have hne : s.cache ≠ [] := by
      intro h0
      rw [h0] at hfull
      simp only [List.length_nil] at hfull
      exact absurd h.capPos (by omega)
    obtain ⟨c0, rest, hc⟩ := List.exists_cons_of_ne_nil hne
    have htail : s.cache.tail = rest := by rw [hc]; rfl
    rw [hs]
    constructor
    · exact h.capPos
    · have hlen := h.lenLe
      rw [hc] at hfull
      simp only [List.length_cons] at hfull
      simp only [List.length_append, List.length_cons, List.length_nil, htail]
      omega
    · rw [List.map_append]
      apply List.pairwise_append.mpr
      refine ⟨h.sorted.sublist (htailsub.map _), List.pairwise_singleton _ _, ?_⟩
      intro a ha b hb
      simp only [List.map_cons, List.map_nil, List.mem_singleton] at hb
      subst hb
      obtain ⟨e, he, rfl⟩ := List.mem_map.mp ha
      exact hallLt e (htailsub.subset he)
    · intro e he
      rcases List.mem_append.mp he with he | he
      · exact List.mem_append_left _ (h.cacheSub e (htailsub.subset he))
      · rw [List.mem_singleton.mp he]
        exact List.mem_append_right _ (List.mem_singleton.mpr rfl)
    · intro e he
      rcases List.mem_append.mp he with he | he
      · exact le_of_lt (hallLt e (htailsub.subset he))
      · rw [List.mem_singleton.mp he]
    · exact h.listLe.trans (le_of_lt hrev)
    · intro a ha
      rcases List.mem_append.mp ha with ha | ha
      · exact (h.aUB a ha).trans (le_of_lt hrev)
      · rw [List.mem_singleton.mp ha]
    · intro a ha
      rcases List.mem_append.mp ha with ha | ha
      · exact h.aPos a ha
      · rw [List.mem_singleton.mp ha]
        exact lt_of_le_of_lt (Nat.zero_le _) hrev
    · intro _ hflag
      simp at hflag
    · intro h0
      simp at h0
    · intro h0
      simp at h0
    · intro b hbA hbnot
      simp only [List.map_append, List.map_cons, List.map_nil, List.mem_append,
        List.mem_singleton, htail] at hbnot
      push_neg at hbnot
      obtain ⟨hbtail, hbne⟩ := hbnot
      rcases List.mem_append.mp hbA with hbA | hbr
      swap
      · exact absurd (List.mem_singleton.mp hbr) hbne
      rw [oldestValue_set_evict]
      rw [htail]
      cases rest with
      | nil =>
          simp only [List.nil_append, List.head?_cons]
          exact lt_of_le_of_lt (h.aUB b hbA) hrev
      | cons c1 rest2 =>
          simp only [List.cons_append, List.head?_cons]
          by_cases hb0 : b = c0.resourceVersion
          · subst hb0
            have hsorted := h.sorted
            rw [hc] at hsorted
            simp only [List.map_cons, List.pairwise_cons] at hsorted
            exact hsorted.1 c1.resourceVersion (by simp)
          · have hbcache : b ∉ s.cache.map (fun e => e.resourceVersion) := by
              rw [hc]
              simp only [List.map_cons, List.mem_cons]
              push_neg
              have hbt2 := hbtail
              simp only [List.map_cons, List.mem_cons] at hbt2
              push_neg at hbt2
              exact ⟨hb0, hbt2⟩
            have hlow := h.lostLow b hbA hbcache
            have hc1mem : c1 ∈ s.cache := by rw [hc]; simp
            have hold : oldestValue s ≤ c1.resourceVersion := by
              by_cases hcond : 0 < s.listResourceVersion ∧ s.removedEventSinceRelist = false
              · rw [oldestValue_eq_marker s hcond]
                exact h.listLtCache hcond.1 hcond.2 c1 hc1mem
              · rw [oldestValue_eq_head s hcond, hc]
                simp only [List.head?_cons]
                have hsorted := h.sorted
                rw [hc] at hsorted
                simp only [List.map_cons, List.pairwise_cons] at hsorted
                exact le_of_lt (hsorted.1 c1.resourceVersion (by simp))
            omega
  · have hs : appendEvent s ev =
        { s with cache := s.cache ++ [ev], resourceVersion := ev.resourceVersion } := by
      unfold appendEvent; rw [if_neg hfull]
    rw [hs]
    constructor
    · exact h.capPos
    · have hlen := h.lenLe
      simp only [List.length_append, List.length_cons, List.length_nil]
      omega
    · rw [List.map_append]
      apply List.pairwise_append.mpr
      refine ⟨h.sorted, List.pairwise_singleton _ _, ?_⟩
      intro a ha b hb
      simp only [List.map_cons, List.map_nil, List.mem_singleton] at hb
      subst hb
      obtain ⟨e, he, rfl⟩ := List.mem_map.mp ha
      exact hallLt e he
    · intro e he
      rcases List.mem_append.mp he with he | he
      · exact List.mem_append_left _ (h.cacheSub e he)
      · rw [List.mem_singleton.mp he]
        exact List.mem_append_right _ (List.mem_singleton.mpr rfl)
    · intro e he
      rcases List.mem_append.mp he with he | he
      · exact le_of_lt (hallLt e he)
      · rw [List.mem_singleton.mp he]
    · exact h.listLe.trans (le_of_lt hrev)
    · intro a ha
      rcases List.mem_append.mp ha with ha | ha
      · exact (h.aUB a ha).trans (le_of_lt hrev)
      · rw [List.mem_singleton.mp ha]
    · intro a ha
      rcases List.mem_append.mp ha with ha | ha
      · exact h.aPos a ha
      · rw [List.mem_singleton.mp ha]
        exact lt_of_le_of_lt (Nat.zero_le _) hrev
    · intro hpos hflag e he
      rcases List.mem_append.mp he with he | he
      · exact h.listLtCache hpos hflag e he
      · rw [List.mem_singleton.mp he]
        exact lt_of_le_of_lt h.listLe hrev
    · intro h0
      simp at h0
    · intro h0
      simp at h0
    · intro b hbA hbnot
      simp only [List.map_append, List.map_cons, List.map_nil, List.mem_append,
        List.mem_singleton] at hbnot
      push_neg at hbnot
      obtain ⟨hbcache, hbne⟩ := hbnot
      rcases List.mem_append.mp hbA with hbA | hbr
      swap
      · exact absurd (List.mem_singleton.mp hbr) hbne
      have hlow := h.lostLow b hbA hbcache
      rw [oldestValue_set_append]
      by_cases hcond : 0 < s.listResourceVersion ∧ s.removedEventSinceRelist = false
      · rw [if_pos hcond]
        rw [oldestValue_eq_marker s hcond] at hlow
        exact hlow
      · rw [if_neg hcond]
        cases hc : s.cache with
        | nil =>
            have hflag := h.emptyFlag hc
            have hlz : s.listResourceVersion = 0 := by
              by_contra hnz
              exact hcond ⟨Nat.pos_of_ne_zero hnz, hflag⟩
            have hA := h.emptyZero hc hlz
            rw [hA] at hbA
            exact absurd hbA (List.not_mem_nil b)
        | cons c0 rest =>
            simp only [List.cons_append, List.head?_cons]
            rw [oldestValue_eq_head s hcond, hc] at hlow
            simpa using hlow

theorem step_resourceVersion (s : watchCache) (op : Op) :
    (step s op).resourceVersion = opRev op := by
  cases op with
  | add p =>
      show (processOp s .added p).resourceVersion = p.resourceVersion
      rw [processOp_resourceVersion, appendEvent_resourceVersion]
      rfl
  | update p =>
      show (processOp s .modified p).resourceVersion = p.resourceVersion
      rw [processOp_resourceVersion, appendEvent_resourceVersion]
      rfl
  | delete p =>
      show (processOp s .deleted p).resourceVersion = p.resourceVersion
      rw [processOp_resourceVersion, appendEvent_resourceVersion]
      rfl
  | replace items rv =>
      show (replaceAll s items rv).resourceVersion = rv
      exact (foldl_upsert_ring _ items).2.2.2
  | bookmark rv => rfl

theorem cacheInv_processOp (A : List Nat) (s : watchCache) (t : WatchEventType) (p : Pod)
    (h : cacheInv A s) (hrev : s.resourceVersion < p.resourceVersion) :
    cacheInv (A ++ [p.resourceVersion]) (processOp s t p) := by
  have hbase := cacheInv_appendEvent A s (eventFor s t p) h hrev
  exact cacheInv_congr _ _ _ hbase (processOp_capacity s t p) (processOp_cache s t p)
    (processOp_listResourceVersion s t p) (processOp_removed s t p)
    (processOp_resourceVersion s t p)

theorem cacheInv_foldl_upsert (A : List Nat) (items : List Pod) (t : watchCache)
    (h : cacheInv A t) : cacheInv A (items.foldl (fun t p => upsertElement t p) t) := by
  have hr := foldl_upsert_ring t items
  exact cacheInv_congr A t _ h hr.1.1 hr.1.2 hr.2.1 hr.2.2.1 hr.2.2.2

theorem cacheInv_replace (A : List Nat) (s : watchCache) (items : List Pod) (rv : Nat)
    (h : cacheInv A s) (hrev : s.resourceVersion < rv) :
    cacheInv A (replaceAll s items rv) := by
  show cacheInv A (items.foldl (fun t p => upsertElement t p)
    { s with cache := [], listResourceVersion := rv, removedEventSinceRelist := false,
             resourceVersion := rv, store := [], labelIndex := [], nodeNameIndex := [] })
  apply cacheInv_foldl_upsert
  have hrvpos : 0 < rv := lt_of_le_of_lt (Nat.zero_le _) hrev
  constructor
  · exact h.capPos
  · exact Nat.zero_le _
  · exact List.Pairwise.nil
  · intro e he; exact absurd he (List.not_mem_nil e)
  · intro e he; exact absurd he (List.not_mem_nil e)
  · exact le_refl rv
  · intro a ha; exact (h.aUB a ha).trans (le_of_lt hrev)
  · exact h.aPos
  · intro _ _ e he; exact absurd he (List.not_mem_nil e)
  · intro _; rfl
  · intro _ hlz
    exact absurd (show rv = 0 from hlz) (by omega)
  · intro b hbA _
    rw [oldestValue_eq_marker _ ⟨hrvpos, rfl⟩]
    show b < rv + 1
    have := h.aUB b hbA
    omega

theorem cacheInv_bookmark (A : List Nat) (s : watchCache) (rv : Nat)
    (h : cacheInv A s) (hrev : s.resourceVersion < rv) :
    cacheInv A { s with resourceVersion := rv } := by
  constructor
  · exact h.capPos
  · exact h.lenLe
  · exact h.sorted
  · exact h.cacheSub
  · intro e he; exact (h.rvUB e he).trans (le_of_lt hrev)
  · exact h.listLe.trans (le_of_lt hrev)
  · intro a ha; exact (h.aUB a ha).trans (le_of_lt hrev)
  · exact h.aPos
  · exact h.listLtCache
  · exact h.emptyFlag
  · exact h.emptyZero
  · have hov : oldestValue { s with resourceVersion := rv } = oldestValue s :=
      oldestValue_congr s { s with resourceVersion := rv } rfl rfl rfl
    rw [hov]
    exact h.lostLow

theorem appendedRevs_cons (op : Op) (ops : List Op) :
    appendedRevs (op :: ops) = appendedRevs [op] ++ appendedRevs ops := by
  cases op <;> simp [appendedRevs, List.filterMap_cons]

theorem cacheInv_step (A : List Nat) (s : watchCache) (op : Op) (h : cacheInv A s)
    (hrev : s.resourceVersion < opRev op) :
    cacheInv (A ++ appendedRevs [op]) (step s op) := by
  cases op with
  | add p => exact cacheInv_processOp A s .added p h hrev
  | update p => exact cacheInv_processOp A s .modified p h hrev
  | delete p => exact cacheInv_processOp A s .deleted p h hrev
  | replace items rv =>
      rw [show appendedRevs [Op.replace items rv] = [] from rfl, List.append_nil]
      exact cacheInv_replace A s items rv h hrev
  | bookmark rv =>
      rw [show appendedRevs [Op.bookmark rv] = [] from rfl, List.append_nil]
      exact cacheInv_bookmark A s rv h hrev

theorem cacheInv_foldl :
    ∀ (ops : List Op) (A : List Nat) (s : watchCache), cacheInv A s →
      List.Chain (· < ·) s.resourceVersion (ops.map opRev) →
      cacheInv (A ++ appendedRevs ops) (ops.foldl step s)
  | [], A, s, h, _ => by simpa [appendedRevs] using h
  | op :: ops, A, s, h, hchain => by
      rw [List.map_cons, List.chain_cons] at hchain
      obtain ⟨h1, h2⟩ := hchain
      have hstep := cacheInv_step A s op h h1
      have h2s : List.Chain (· < ·) (step s op).resourceVersion (ops.map opRev) := by
        rw [step_resourceVersion]; exact h2
      have hrec := cacheInv_foldl ops (A ++ appendedRevs [op]) (step s op) hstep h2s
      rw [appendedRevs_cons, ← List.append_assoc]
      exact hrec

theorem cacheInv_execOps (capacity : Nat) (ops : List Op) (hcap : 0 < capacity)
    (hwf : List.Chain (· < ·) 0 (ops.map opRev)) :
    cacheInv (appendedRevs ops) (execOps capacity ops) := by
  have h0 : cacheInv [] (initialCache capacity) := by
    constructor
    · exact hcap
    · exact Nat.zero_le _
    · exact List.Pairwise.nil
    · intro e he; exact absurd he (List.not_mem_nil e)
    · intro e he; exact absurd he (List.not_mem_nil e)
    · exact le_refl 0
    · intro a ha; exact absurd ha (List.not_mem_nil a)
    · intro a ha; exact absurd ha (List.not_mem_nil a)
    · intro hpos; exact absurd hpos (lt_irrefl 0)
    · intro _; rfl
    · intro _ _; rfl
    · intro b hbA; exact absurd hbA (List.not_mem_nil b)
  have := cacheInv_foldl ops [] (initialCache capacity) h0 hwf
  simpa using this

theorem eventsSince_ok_eq (s : watchCache) (rv : Nat) (l : List watchCacheEvent)
    (h : eventsSince s rv = .ok l) :
    l = s.cache.dropWhile (fun e => e.resourceVersion ≤ rv) := by
  unfold eventsSince at h
  by_cases h1 : (0 < s.listResourceVersion ∧ s.removedEventSinceRelist = false) ∨ s.cache ≠ []
  · rw [if_pos h1] at h
    by_cases h2 : rv + 1 < oldestValue s
    · rw [if_pos h2] at h; cases h
    · rw [if_neg h2] at h
      injection h with h
      exact h.symm
  · rw [if_neg h1] at h; cases h

theorem mem_dropWhile_lt (rv : Nat) :
    ∀ l : List watchCacheEvent,
      List.Pairwise (· < ·) (l.map (fun e => e.resourceVersion)) →
      ∀ e ∈ l.dropWhile (fun e => e.resourceVersion ≤ rv), rv < e.resourceVersion
  | [], _, e, he => absurd he (List.not_mem_nil e)
  | x :: l, hp, e, he => by
      rw [List.dropWhile_cons] at he
      rw [List.map_cons, List.pairwise_cons] at hp
      by_cases hx : x.resourceVersion ≤ rv
      · rw [if_pos (by simpa using hx)] at he
        exact mem_dropWhile_lt rv l hp.2 e he
      · rw [if_neg (by simpa using hx)] at he
        rcases List.mem_cons.mp he with rfl | he2
        · omega
        · have hxe : x.resourceVersion < e.resourceVersion :=
            hp.1 e.resourceVersion (List.mem_map.mpr ⟨e, he2, rfl⟩)
          omega

theorem alookup_mem (l : List (String × String)) (k v : String)
    (h : alookup l k = some v) : (k, v) ∈ l := by
  unfold alookup at h
  cases hf : l.find? (fun kv => kv.1 == k) with
  | none => rw [hf] at h; cases h
  | some kv =>
      rw [hf] at h
      injection h with h
      have hk : kv.1 = k := by simpa using List.find?_some hf
      have hmem := List.mem_of_find?_eq_some hf
      have : kv = (k, v) := by
        cases kv
        simp only [Prod.mk.injEq]
        exact ⟨hk, h⟩
      rw [← this]
      exact hmem

theorem matchesPred_labelSel (pred : SelPred) (e : storeElement) (k v : String)
    (h : matchesPred pred e = true) (hkv : (k, v) ∈ pred.labelSel) :
    alookup e.labels k = some v := by
  unfold matchesPred at h
  rw [Bool.and_eq_true] at h
  have := List.all_eq_true.mp h.1 (k, v) hkv
  simpa using this

theorem matchesPred_fieldSel (pred : SelPred) (e : storeElement) (k v : String)
    (h : matchesPred pred e = true) (hkv : (k, v) ∈ pred.fieldSel) :
    alookup e.fields k = some v := by
  unfold matchesPred at h
  rw [Bool.and_eq_true] at h
  have := List.all_eq_true.mp h.2 (k, v) hkv
  simpa using this

theorem labelIndexName_inj (l : String) (h : labelIndexName l = "l:label") : l = "label" := by
  have hd : (labelIndexName l).data = ("l:label" : String).data := by rw [h]
  unfold labelIndexName at hd
  rw [String.data_append] at hd
  have h2 : l.data = ("label" : String).data := by simpa using hd
  cases l
  exact congrArg String.mk h2

theorem fieldIndexName_inj (f : String) (h : fieldIndexName f = "f:spec.nodeName") :
    f = "spec.nodeName" := by
  have hd : (fieldIndexName f).data = ("f:spec.nodeName" : String).data := by rw [h]
  unfold fieldIndexName at hd
  rw [String.data_append] at hd
  have h2 : f.data = ("spec.nodeName" : String).data := by simpa using hd
  cases f
  exact congrArg String.mk h2

theorem fieldIndexName_ne_label (f : String) : fieldIndexName f ≠ "l:label" := by
  intro h
  have hd : (fieldIndexName f).data = ("l:label" : String).data := by rw [h]
  unfold fieldIndexName at hd
  rw [String.data_append] at hd
  simp at hd

theorem labelIndexName_ne_field (l : String) : labelIndexName l ≠ "f:spec.nodeName" := by
  intro h
  have hd : (labelIndexName l).data = ("f:spec.nodeName" : String).data := by rw [h]
  unfold labelIndexName at hd
  rw [String.data_append] at hd
  simp at hd

theorem matchValues_mem (pred : SelPred) (mv : String × String)
    (hmem : mv ∈ matchValues pred) :
    (∃ l ∈ pred.indexLabels,
        alookup pred.labelSel l = some mv.2 ∧ mv.1 = labelIndexName l) ∨
    (∃ f ∈ pred.indexFields,
        alookup pred.fieldSel f = some mv.2 ∧ mv.1 = fieldIndexName f) := by
  unfold matchValues at hmem
  rcases List.mem_append.mp hmem with hm | hm
  · obtain ⟨l, hl, hmap⟩ := List.mem_filterMap.mp hm
    cases ha : alookup pred.labelSel l with
    | none => rw [ha] at hmap; cases hmap
    | some v =>
        rw [ha] at hmap
        injection hmap with hmap
        subst hmap
        exact Or.inl ⟨l, hl, ha, rfl⟩
  · obtain ⟨f, hf, hmap⟩ := List.mem_filterMap.mp hm
    cases ha : alookup pred.fieldSel f with
    | none => rw [ha] at hmap; cases hmap
    | some v =>
        rw [ha] at hmap
        injection hmap with hmap
        subst hmap
        exact Or.inr ⟨f, hf, ha, rfl⟩

theorem listItems_noIndex (s : watchCache) (pred : SelPred)
    (hfind : (matchValues pred).find? (fun mv => hasIndex mv.1) = none) :
    listItems s pred = (s.store, "") := by
  unfold listItems
  rw [hfind]

theorem listItems_withIndex (s : watchCache) (pred : SelPred) (mv : String × String)
    (hfind : (matchValues pred).find? (fun mv => hasIndex mv.1) = some mv) :
    listItems s pred =
      (s.store.filter (fun e => (bucketKeysFor s mv.1 mv.2).contains e.key), mv.1) := by
  unfold listItems
  rw [hfind]

theorem filter_bucket_eq (st : List storeElement) (bm : BucketMap)
    (ext : Pod → List String) (v : String)
    (hnd : (st.map (fun e => e.key)).Nodup) (hbm : BMInv ext bm st) :
    st.filter (fun e => (bucketGet bm v).contains e.key) =
      st.filter (fun e => decide (v ∈ ext e.object)) := by
  apply List.filter_congr
  intro e he
  have hiff : e.key ∈ bucketGet bm v ↔ v ∈ ext e.object := by
    rw [hbm v e.key]
    constructor
    · rintro ⟨e2, hl, hv⟩
      rw [storeLookup_mem st e hnd he] at hl
      injection hl with hl
      rw [hl]
      exact hv
    · intro hv
      exact ⟨e, storeLookup_mem st e hnd he, hv⟩
  have h1 : ((bucketGet bm v).contains e.key = true) ↔ (decide (v ∈ ext e.object) = true) := by
    simp only [decide_eq_true_eq]
    simpa using hiff
  cases hc : (bucketGet bm v).contains e.key with
  | true => exact (h1.mp hc).symm
  | false =>
      cases hd : decide (v ∈ ext e.object) with
      | true => exact absurd (h1.mpr hd) (by rw [hc]; simp)
      | false => rfl

theorem hasIndex_cases (name : String) (h : hasIndex name = true) :
    name = "l:label" ∨ name = "f:spec.nodeName" := by
  unfold hasIndex at h
  rw [Bool.or_eq_true] at h
  rcases h with h | h
  · exact Or.inl (by simpa using h)
  · exact Or.inr (by simpa using h)

theorem bucketKeysFor_label (s : watchCache) (v : String) :
    bucketKeysFor s "l:label" v = bucketGet s.labelIndex v := by
  unfold bucketKeysFor
  rw [if_pos rfl]

theorem bucketKeysFor_field (s : watchCache) (v : String) :
    bucketKeysFor s "f:spec.nodeName" v = bucketGet s.nodeNameIndex v := by
  unfold bucketKeysFor
  rw [if_neg (by decide), if_pos rfl]

/-- Serving via the registered label index returns exactly the elements whose
extracted label value equals the pinned value, with no further filtering. -/
theorem listItems_label_bucket (s : watchCache) (pred : SelPred) (v : String)
    (hstore : storeInv s)
    (hfind : (matchValues pred).find? (fun mv => hasIndex mv.1) = some ("l:label", v)) :
    (listItems s pred).1 =
      s.store.filter (fun e => decide (v ∈ extractLabelValue e.object)) ∧
    (listItems s pred).2 = "l:label" := by
  rw [listItems_withIndex s pred ("l:label", v) hfind]
  constructor
  · show s.store.filter (fun e => (bucketKeysFor s "l:label" v).contains e.key) = _
    have hb := bucketKeysFor_label s v
    calc s.store.filter (fun e => (bucketKeysFor s "l:label" v).contains e.key)
        = s.store.filter (fun e => (bucketGet s.labelIndex v).contains e.key) := by rw [hb]
      _ = s.store.filter (fun e => decide (v ∈ extractLabelValue e.object)) :=
          filter_bucket_eq s.store s.labelIndex extractLabelValue v
            hstore.keysNodup hstore.labelBM
  · rfl

/-- Serving via the registered field index returns exactly the elements whose
extracted field value equals the pinned value, with no further filtering. -/
theorem listItems_field_bucket (s : watchCache) (pred : SelPred) (v : String)
    (hstore : storeInv s)
    (hfind : (matchValues pred).find? (fun mv => hasIndex mv.1) =
      some ("f:spec.nodeName", v)) :
    (listItems s pred).1 =
      s.store.filter (fun e => decide (v ∈ extractNodeName e.object)) ∧
    (listItems s pred).2 = "f:spec.nodeName" := by
  rw [listItems_withIndex s pred ("f:spec.nodeName", v) hfind]
  constructor
  · show s.store.filter (fun e => (bucketKeysFor s "f:spec.nodeName" v).contains e.key) = _
    have hb := bucketKeysFor_field s v
    calc s.store.filter (fun e => (bucketKeysFor s "f:spec.nodeName" v).contains e.key)
        = s.store.filter (fun e => (bucketGet s.nodeNameIndex v).contains e.key) := by rw [hb]
      _ = s.store.filter (fun e => decide (v ∈ extractNodeName e.object)) :=
          filter_bucket_eq s.store s.nodeNameIndex extractNodeName v
            hstore.keysNodup hstore.nodeBM
  · rfl

theorem matches_pinned_label (pred : SelPred) (v : String) (e : storeElement)
    (hcanon : e = makeStoreElement e.object)
    (hmem : ("l:label", v) ∈ matchValues pred)
    (hm : matchesPred pred e = true) :
    v ∈ extractLabelValue e.object := by
  rcases matchValues_mem pred ("l:label", v) hmem with ⟨l, _, ha, hn⟩ | ⟨f, _, _, hn⟩
  · have hl : l = "label" := labelIndexName_inj l hn.symm
    subst hl
    have hkv := alookup_mem _ _ _ ha
    have hlook := matchesPred_labelSel pred e "label" v hm hkv
    have hlab : e.labels = e.object.labels := by rw [hcanon]; rfl
    rw [hlab] at hlook
    unfold extractLabelValue
    rw [hlook]
    simp
  · exact absurd hn.symm (fieldIndexName_ne_label f)

theorem matches_pinned_field (pred : SelPred) (v : String) (e : storeElement)
    (hcanon : e = makeStoreElement e.object)
    (hmem : ("f:spec.nodeName", v) ∈ matchValues pred)
    (hm : matchesPred pred e = true) :
    v ∈ extractNodeName e.object := by
  rcases matchValues_mem pred ("f:spec.nodeName", v) hmem with ⟨l, _, _, hn⟩ | ⟨f, _, ha, hn⟩
  · exact absurd hn.symm (labelIndexName_ne_field l)
  · have hf : f = "spec.nodeName" := fieldIndexName_inj f hn.symm
    subst hf
    have hkv := alookup_mem _ _ _ ha
    have hlook := matchesPred_fieldSel pred e "spec.nodeName" v hm hkv
    have hfields : e.fields = [("spec.nodeName", e.object.nodeName)] := by rw [hcanon]; rfl
    rw [hfields] at hlook
    have hv : e.object.nodeName = v := by
      simpa [alookup] using hlook
    unfold extractNodeName
    rw [hv]
    simp

/-- Applying the full predicate to an index-served listing recovers exactly
the predicate-filtered full scan: the pinned selector guarantees every
predicate-matching element is in the served bucket. -/
theorem filter_listItems_eq (capacity : Nat) (ops : List Op) (pred : SelPred) :
    ((listItems (execOps capacity ops) pred).1).filter (matchesPred pred) =
      ((execOps capacity ops).store).filter (matchesPred pred) := by
  have hstore := storeInv_execOps capacity ops
  cases hfind : (matchValues pred).find? (fun mv => hasIndex mv.1) with
  | none => rw [listItems_noIndex _ _ hfind]
  | some mv =>
      have hhas : hasIndex mv.1 = true := by simpa using List.find?_some hfind
      have hmem : mv ∈ matchValues pred := List.mem_of_find?_eq_some hfind
      obtain ⟨n, v⟩ := mv
      rcases hasIndex_cases n hhas with hname | hname
      · subst hname
        rw [(listItems_label_bucket _ pred v hstore hfind).1, List.filter_filter]
        apply List.filter_congr
        intro e he
        cases hm : matchesPred pred e with
        | false => simp
        | true =>
            have hv := matches_pinned_label pred v e (hstore.canonical e he) hmem hm
            simp [hv]
      · subst hname
        rw [(listItems_field_bucket _ pred v hstore hfind).1, List.filter_filter]
        apply List.filter_congr
        intro e he
        cases hm : matchesPred pred e with
        | false => simp
        | true =>
            have hv := matches_pinned_field pred v e (hstore.canonical e he) hmem hm
            simp [hv]

instance {ε α : Type} [DecidableEq ε] [DecidableEq α] : DecidableEq (Except ε α) :=
  fun x y =>
    match x, y with
    | .error a, .error b =>
        if h : a = b then .isTrue (by rw [h]) else .isFalse (fun hc => h (Except.error.inj hc))
    | .ok a, .ok b =>
        if h : a = b then .isTrue (by rw [h]) else .isFalse (fun hc => h (Except.ok.inj hc))
    | .error _, .ok _ => .isFalse (fun hc => Except.noConfusion hc)
    | .ok _, .error _ => .isFalse (fun hc => Except.noConfusion hc)

/-! Concrete scenarios embedded from the sampled test files. -/

/-- Embedded from Scenario A of the spec (`TestEvents` shape, capacity 2):
Add at revision 1, then Updates at revisions 2 and 3. -/
def ringOps : List Op :=
  [Op.add (makeTestPod "pod" 1), Op.update (makeTestPod "pod" 2),
   Op.update (makeTestPod "pod" 3)]

/-- The capacity-2 ring state of Scenario A. -/
def ringState : watchCache := execOps 2 ringOps

/-- Embedded from `TestWaitUntilFreshAndList`: the three pods of Scenario B. -/
def scenarioPodOne : Pod := makeTestPodDetails "pod1" 2 "node1" [("label", "value1")]

/-- Second pod of Scenario B. -/
def scenarioPodTwo : Pod := makeTestPodDetails "pod2" 3 "node1" [("label", "value1")]

/-- Third pod of Scenario B. -/
def scenarioPodThree : Pod := makeTestPodDetails "pod3" 5 "node2" [("label", "value2")]

/-- The ingestion history of Scenario B. -/
def scenarioOps : List Op :=
  [Op.add scenarioPodOne, Op.add scenarioPodTwo, Op.add scenarioPodThree]

/-- The capacity-3 snapshot state of Scenario B. -/
def scenarioState : watchCache := execOps 3 scenarioOps

/-- Embedded from `TestWaitUntilFreshAndList`: label selector `label=value1`,
field selector `spec.nodeName=node2`, label index hint `label`. -/
def scenarioPred : SelPred :=
  { labelSel := [("label", "value1")], fieldSel := [("spec.nodeName", "node2")],
    indexLabels := ["label"], indexFields := [] }

/-- A history that Adds the same key twice (revisions 1 and 2). -/
def doubleAddOps : List Op :=
  [Op.add (makeTestPod "pod" 1), Op.add (makeTestPod "pod" 2)]

/-- Modelled from the spec: whether a notification mutates the snapshot entry
of a given key (a Replace rebuilds every entry). -/
def affectsKey (k : String) : Op → Bool
  | .add p => podKey p == k
  | .update p => podKey p == k
  | .delete p => podKey p == k
  | .replace _ _ => true
  | .bookmark _ => false

theorem step_store_add (s : watchCache) (p : Pod) :
    (step s (Op.add p)).store = storeUpsert s.store (makeStoreElement p) := by
  show (upsertElement (appendEvent s (eventFor s .added p)) p).store = _
  show storeUpsert (appendEvent s (eventFor s .added p)).store (makeStoreElement p) = _
  rw [appendEvent_store]

theorem step_store_update (s : watchCache) (p : Pod) :
    (step s (Op.update p)).store = storeUpsert s.store (makeStoreElement p) := by
  show (upsertElement (appendEvent s (eventFor s .modified p)) p).store = _
  show storeUpsert (appendEvent s (eventFor s .modified p)).store (makeStoreElement p) = _
  rw [appendEvent_store]

theorem step_store_delete (s : watchCache) (p : Pod) :
    (step s (Op.delete p)).store = storeDelete s.store (podKey p) := by
  show (deleteElement (appendEvent s (eventFor s .deleted p)) p).store = _
  show storeDelete (appendEvent s (eventFor s .deleted p)).store (podKey p) = _
  rw [appendEvent_store]

theorem storeLookup_step_unaffected (s : watchCache) (op : Op) (k : String)
    (h : affectsKey k op = false) :
    storeLookup (step s op).store k = storeLookup s.store k := by
  cases op with
  | add p =>
      have hne : ¬ k = podKey p := by
        intro hk
        unfold affectsKey at h
        rw [hk] at h
        simp at h
      rw [step_store_add, storeLookup_upsert,
        if_neg (show ¬ k = (makeStoreElement p).key from hne)]
  | update p =>
      have hne : ¬ k = podKey p := by
        intro hk
        unfold affectsKey at h
        rw [hk] at h
        simp at h
      rw [step_store_update, storeLookup_upsert,
        if_neg (show ¬ k = (makeStoreElement p).key from hne)]
  | delete p =>
      have hne : ¬ k = podKey p := by
        intro hk
        unfold affectsKey at h
        rw [hk] at h
        simp at h
      rw [step_store_delete, storeLookup_delete, if_neg hne]
  | replace items rv => simp [affectsKey] at h
  | bookmark rv => rfl

theorem storeLookup_foldl_unaffected (k : String) :
    ∀ (post : List Op) (s : watchCache),
      (∀ op ∈ post, affectsKey k op = false) →
      storeLookup ((post.foldl step s)).store k = storeLookup s.store k
  | [], _, _ => rfl
  | op :: post, s, h => by
      have h1 := h op (List.mem_cons_self op post)
      have h2 : ∀ o ∈ post, affectsKey k o = false :=
        fun o ho => h o (List.mem_cons_of_mem op ho)
      rw [List.foldl_cons, storeLookup_foldl_unaffected k post (step s op) h2,
        storeLookup_step_unaffected s op k h1]

/-- Computable check that a revision sequence is strictly ascending from a
starting revision. -/
def revsAscending : Nat → List Nat → Bool
  | _, [] => true
  | prev, r :: rest => decide (prev < r) && revsAscending r rest

theorem chain_of_revsAscending :
    ∀ (a : Nat) (l : List Nat), revsAscending a l = true → List.Chain (· < ·) a l
  | _, [], _ => List.Chain.nil
  | a, r :: rest, h => by
      unfold revsAscending at h
      rw [Bool.and_eq_true] at h
      exact List.Chain.cons (by simpa using h.1) (chain_of_revsAscending r rest h.2)

/-! Claim theorems. -/

/-- The Modified event at revision 2 of the capacity-2 ring scenario. -/
def ringEventTwo : watchCacheEvent :=
  { eventType := .modified, object := makeTestPod "pod" 2,
    prevObject := some (makeTestPod "pod" 1), key := "prefix/ns/pod",
    resourceVersion := 2 }

/-- The Modified event at revision 3 of the capacity-2 ring scenario. -/
def ringEventThree : watchCacheEvent :=
  { eventType := .modified, object := makeTestPod "pod" 3,
    prevObject := some (makeTestPod "pod" 2), key := "prefix/ns/pod",
    resourceVersion := 3 }

/-- C1 counterexample: in the Scenario B snapshot, a List with label selector
`label=value1`, field selector `spec.nodeName=node2` served via the label
index returns 2 items with `indexUsed = "l:label"`, while the full-scan
evaluation of the same predicate returns 0 items — so the index-served List
neither equals the full scan nor returns the claimed 0 items. -/
theorem c1_counterexample :
    waitUntilFreshAndList scenarioState 5 scenarioPred =
      .ok ({ items := [makeStoreElement scenarioPodOne, makeStoreElement scenarioPodTwo],
             resourceVersion := 5 }, "l:label") ∧
    (scenarioState.store.filter (matchesPred scenarioPred)).length = 0 ∧
    [makeStoreElement scenarioPodOne, makeStoreElement scenarioPodTwo].length = 2 :=
  ⟨by decide, by decide, by decide⟩

/-- C1 (amended): a List served via a secondary index returns the pinned
bucket without evaluating the remaining selectors, so it equals the full scan
only after the full predicate is applied to it: for every reachable snapshot
and predicate, filtering the served items with the predicate yields exactly
the predicate-filtered full scan.  In Scenario B the served List holds the 2
label-bucket members with `indexUsed = "l:label"`, of which the full
predicate accepts 0. -/
theorem c1_amended :
    (∀ (capacity : Nat) (ops : List Op) (pred : SelPred),
      ((listItems (execOps capacity ops) pred).1).filter (matchesPred pred) =
        ((execOps capacity ops).store).filter (matchesPred pred)) ∧
    waitUntilFreshAndList scenarioState 5 scenarioPred =
      .ok ({ items := [makeStoreElement scenarioPodOne, makeStoreElement scenarioPodTwo],
             resourceVersion := 5 }, "l:label") ∧
    [makeStoreElement scenarioPodOne,
      makeStoreElement scenarioPodTwo].filter (matchesPred scenarioPred) = [] :=
  ⟨filter_listItems_eq, by decide, by decide⟩

/-- C2 counterexample: on the capacity-2 ring after Add(rev1), Update(rev2),
Update(rev3), `EventsSince(1)` does not fail with ErrTooOld — revision 1 is
exactly one below the oldest retained revision 2, which the ring still
serves, returning both retained events. -/
theorem c2_counterexample :
    eventsSince ringState 1 = .ok [ringEventTwo, ringEventThree] ∧
    eventsSince ringState 1 ≠ .error .tooOldResourceVersion :=
  ⟨by decide, by decide⟩

/-- C2 (amended): on a capacity-2 ring after Add(rev1), Update(rev2),
Update(rev3), `EventsSince(1)` succeeds and returns the two retained Modified
events (revisions 2 and 3), and `EventsSince(2)` returns exactly one event:
the Modified event at revision 3. -/
theorem c2_amended :
    eventsSince ringState 1 = .ok [ringEventTwo, ringEventThree] ∧
    eventsSince ringState 2 = .ok [ringEventThree] ∧
    ringEventThree.eventType = .modified ∧ ringEventThree.resourceVersion = 3 :=
  ⟨by decide, by decide, rfl, rfl⟩

/-- C3 counterexample: in the capacity-2 ring state the event at revision
B = 1 has been appended and discarded, yet `EventsSince(1)` (R = B) succeeds
with two events — neither an ErrTooOld failure nor the empty bookmark
answer. -/
theorem c3_counterexample :
    (1 : Nat) ∈ appendedRevs ringOps ∧
    (1 : Nat) ∉ ringState.cache.map (fun e => e.resourceVersion) ∧
    eventsSince ringState 1 = .ok [ringEventTwo, ringEventThree] ∧
    eventsSince ringState 1 ≠ .error .tooOldResourceVersion ∧
    [ringEventTwo, ringEventThree] ≠ ([] : List watchCacheEvent) :=
  ⟨by decide, by decide, by decide, by decide, by decide⟩

/-- C3 (amended): once the ring has discarded the event at revision B,
`EventsSince(R)` fails with ErrTooOld for every R strictly below B; at R = B
itself the call can succeed (when B + 1 is the oldest retained revision it
returns all retained events, as the counterexample shows), and the
still-present bookmark exception cannot arise below B because a surviving
marker revision always exceeds every discarded revision. -/
theorem c3_amended (capacity : Nat) (ops : List Op) (B R : Nat)
    (hcap : 0 < capacity)
    (hwf : List.Chain (· < ·) 0 (ops.map opRev))
    (hB : B ∈ appendedRevs ops)
    (hlost : B ∉ (execOps capacity ops).cache.map (fun e => e.resourceVersion))
    (hR : R < B) :
    eventsSince (execOps capacity ops) R = .error .tooOldResourceVersion := by
  have hinv := cacheInv_execOps capacity ops hcap hwf
  have hBlow := hinv.lostLow B hB hlost
  have hguard : (0 < (execOps capacity ops).listResourceVersion ∧
      (execOps capacity ops).removedEventSinceRelist = false) ∨
      (execOps capacity ops).cache ≠ [] := by
    by_contra hng
    rw [not_or] at hng
    obtain ⟨hnc, hcache0⟩ := hng
    have hcache : (execOps capacity ops).cache = [] := not_not.mp hcache0
    have hflag := hinv.emptyFlag hcache
    have hlz : (execOps capacity ops).listResourceVersion = 0 := by
      by_contra hnz
      exact hnc ⟨Nat.pos_of_ne_zero hnz, hflag⟩
    have hA := hinv.emptyZero hcache hlz
    rw [hA] at hB
    exact absurd hB (List.not_mem_nil B)
  unfold eventsSince
  rw [if_pos hguard, if_pos (by omega)]

/-- Witness for C3 (amended) at the concrete capacity-2 ring: B = 1 was
discarded and `EventsSince(0)` fails with ErrTooOld. -/
theorem c3_witness :
    (0 < 2 ∧ List.Chain (· < ·) 0 (ringOps.map opRev) ∧
      (1 : Nat) ∈ appendedRevs ringOps ∧
      (1 : Nat) ∉ ringState.cache.map (fun e => e.resourceVersion) ∧ 0 < 1) ∧
    eventsSince ringState 0 = .error .tooOldResourceVersion :=
  ⟨⟨by decide, chain_of_revsAscending 0 (ringOps.map opRev) (by decide),
    by decide, by decide, by decide⟩,
   c3_amended 2 ringOps 1 0 (by decide)
     (chain_of_revsAscending 0 (ringOps.map opRev) (by decide))
     (by decide) (by decide) (by decide)⟩

/-- C4: for every List served via a secondary index, the returned items are
exactly the snapshot elements whose extracted value for the chosen index
equals the pinned value — the remaining selectors of the predicate are not
applied — and in Scenario B the served result contains an item the full
predicate rejects. -/
theorem c4_index_serving :
    (∀ (capacity : Nat) (ops : List Op) (pred : SelPred) (v : String),
      ((matchValues pred).find? (fun mv => hasIndex mv.1) = some ("l:label", v) →
        (listItems (execOps capacity ops) pred).1 =
          ((execOps capacity ops).store).filter
            (fun e => decide (v ∈ extractLabelValue e.object)) ∧
        (listItems (execOps capacity ops) pred).2 = "l:label") ∧
      ((matchValues pred).find? (fun mv => hasIndex mv.1) = some ("f:spec.nodeName", v) →
        (listItems (execOps capacity ops) pred).1 =
          ((execOps capacity ops).store).filter
            (fun e => decide (v ∈ extractNodeName e.object)) ∧
        (listItems (execOps capacity ops) pred).2 = "f:spec.nodeName")) ∧
    (waitUntilFreshAndList scenarioState 5 scenarioPred =
      .ok ({ items := [makeStoreElement scenarioPodOne, makeStoreElement scenarioPodTwo],
             resourceVersion := 5 }, "l:label") ∧
     matchesPred scenarioPred (makeStoreElement scenarioPodOne) = false) := by
  refine ⟨?_, by decide, by decide⟩
  intro capacity ops pred v
  exact ⟨fun hfind =>
      listItems_label_bucket _ pred v (storeInv_execOps capacity ops) hfind,
    fun hfind =>
      listItems_field_bucket _ pred v (storeInv_execOps capacity ops) hfind⟩

/-- Witness for C4 at Scenario B: the label index is selected for the pinned
value `value1` and the served items are exactly the bucket members. -/
theorem c4_witness :
    (matchValues scenarioPred).find? (fun mv => hasIndex mv.1) =
      some ("l:label", "value1") ∧
    ((listItems scenarioState scenarioPred).1 =
      (scenarioState.store).filter
        (fun e => decide ("value1" ∈ extractLabelValue e.object)) ∧
     (listItems scenarioState scenarioPred).2 = "l:label") :=
  ⟨by decide,
   (c4_index_serving.1 3 scenarioOps scenarioPred "value1").1 (by decide)⟩

/-- C5: whenever `WaitUntilFreshAndGet` is released at target revision R, a
key whose last mutation (Add or Update at revision ≤ R) is followed by no
further mutation of that key returns the post-mutation element, and the
returned resource version is at least R. -/
theorem c5_wait_get (capacity : Nat) (pre post : List Op) (mop : Op) (p : Pod) (R : Nat)
    (hm : mop = Op.add p ∨ mop = Op.update p)
    (hrev : p.resourceVersion ≤ R)
    (hpost : ∀ op ∈ post, affectsKey (podKey p) op = false)
    (hwait : R ≤ (execOps capacity (pre ++ mop :: post)).resourceVersion) :
    waitUntilFreshAndGet (execOps capacity (pre ++ mop :: post)) R (podKey p) =
      .ok (some (makeStoreElement p),
           (execOps capacity (pre ++ mop :: post)).resourceVersion) ∧
    R ≤ (execOps capacity (pre ++ mop :: post)).resourceVersion := by
  refine ⟨?_, hwait⟩
  unfold waitUntilFreshAndGet
  rw [if_pos hwait]
  have hexec : (execOps capacity (pre ++ mop :: post)).store =
      ((post.foldl step (step (execOps capacity pre) mop))).store := by
    unfold execOps
    rw [List.foldl_append, List.foldl_cons]
  rw [hexec, storeLookup_foldl_unaffected (podKey p) post _ hpost]
  rcases hm with rfl | rfl
  · rw [step_store_add, storeLookup_upsert,
      if_pos (show podKey p = (makeStoreElement p).key from rfl)]
  · rw [step_store_update, storeLookup_upsert,
      if_pos (show podKey p = (makeStoreElement p).key from rfl)]

/-- Witness for C5 at the `TestWaitUntilFreshAndGet` scenario: after Add(foo,
rev2) and Add(bar, rev5), a Get for key bar released at revision 5 returns
the rev5 element at resource version 5. -/
theorem c5_witness :
    ((makeTestPod "bar" 5).resourceVersion ≤ 5 ∧
     5 ≤ (execOps 3 [Op.add (makeTestPod "foo" 2),
                     Op.add (makeTestPod "bar" 5)]).resourceVersion) ∧
    waitUntilFreshAndGet
        (execOps 3 [Op.add (makeTestPod "foo" 2), Op.add (makeTestPod "bar" 5)]) 5
        (podKey (makeTestPod "bar" 5)) =
      .ok (some (makeStoreElement (makeTestPod "bar" 5)), 5) :=
  ⟨⟨by decide, by decide⟩,
   (c5_wait_get 3 [Op.add (makeTestPod "foo" 2)] [] (Op.add (makeTestPod "bar" 5))
      (makeTestPod "bar" 5) 5 (Or.inl rfl) (by decide)
      (fun op hop => absurd hop (List.not_mem_nil op)) (by decide)).1⟩

/-- C6 counterexample: the string "9223372036854775808" (2^63) is not
parseable by Go's ParseInt — it reports a range error — yet the value is
clamped to 2^63-1 and, with the feature enabled and a limit set, the request
is routed through the exact-revision path rather than Latest. -/
theorem c6_counterexample :
    (goParseInt64 "9223372036854775808").2 = true ∧
    simulatedListFunc true
      { resourceVersion := "9223372036854775808", limit := 500, continueToken := "" } =
      ListPath.exactRV :=
  ⟨by decide, by decide⟩

/-- C6 (amended): every request whose resource-version string parses (with
the error ignored, per the sampled test) to a non-positive value — all
negative numerals, including out-of-range ones, and all syntactically
malformed strings — is served via the Latest path, regardless of the feature
gate, limit, or continuation token; only a positive out-of-range numeral
escapes this rule, because ParseInt clamps it to 2^63-1. -/
theorem c6_amended (listFromCacheSnapshot : Bool) (opts : goListOptions)
    (h : (goParseInt64 opts.resourceVersion).1 ≤ 0) :
    simulatedListFunc listFromCacheSnapshot opts = ListPath.latestRV := by
  have hcond : ¬(0 < opts.limit ∧ 0 < opts.resourceVersion.length ∧
      opts.resourceVersion ≠ "0" ∧ listFromCacheSnapshot = true ∧
      0 < simulatedRequestRevision opts.resourceVersion) := by
    rintro ⟨_, _, _, _, hpos⟩
    unfold simulatedRequestRevision at hpos
    rw [if_neg (by omega)] at hpos
    exact absurd hpos (lt_irrefl 0)
  unfold simulatedListFunc
  rw [if_neg hcond]

/-- Witness for C6 (amended): a List requested with resource version "-5" is
served via the Latest path with the feature gate enabled. -/
theorem c6_witness :
    ((goParseInt64 "-5").1 ≤ 0) ∧
    simulatedListFunc true
      { resourceVersion := "-5", limit := 500, continueToken := "" } =
      ListPath.latestRV :=
  ⟨by decide, c6_amended true _ (by decide)⟩

/-- C7: a wait whose target revision has not been reached when the budget
elapses fails with the timeout error carrying the too-large-resource-version
marker, which is distinct from ErrTooOld; the watch cache's wait path is the
same whether or not the consistent-list-from-cache feature is enabled. -/
theorem c7_wait_timeout (s : watchCache) (target : Nat) (pred : SelPred)
    (h : s.resourceVersion < target) :
    waitUntilFreshAndList s target pred = .error .tooLargeResourceVersion ∧
    StorageError.isTimeoutError .tooLargeResourceVersion = true ∧
    StorageError.isTooLargeResourceVersionMarker .tooLargeResourceVersion = true ∧
    StorageError.isTooOldResourceVersion .tooLargeResourceVersion = false ∧
    StorageError.tooLargeResourceVersion ≠ StorageError.tooOldResourceVersion := by
  refine ⟨?_, rfl, rfl, rfl, by decide⟩
  unfold waitUntilFreshAndList
  rw [if_neg (by omega)]

/-- Witness for C7 at the `TestWaitUntilFreshAndListTimeout` scenario: the
cache reaches revision 3 (Add rev2, bookmark rev3) and the wait for revision
4 fails with the too-large-resource-version timeout. -/
theorem c7_witness :
    ((execOps 3 [Op.add (makeTestPod "foo" 2), Op.bookmark 3]).resourceVersion < 4) ∧
    waitUntilFreshAndList (execOps 3 [Op.add (makeTestPod "foo" 2), Op.bookmark 3]) 4
      everythingPred = .error .tooLargeResourceVersion :=
  ⟨by decide,
   (c7_wait_timeout (execOps 3 [Op.add (makeTestPod "foo" 2), Op.bookmark 3]) 4
      everythingPred (by decide)).1⟩

/-- C8: when the cacher reports ResourceExpired and the snapshot-serving
feature is enabled, the delegator transparently retries against the
authoritative store and the caller sees the store's outcome (never a
ResourceExpired failure when the store succeeds); with the feature disabled
the authoritative store is never called and the error surfaces unchanged. -/
theorem c8_fallback (storageGetList : Except StorageError Unit)
    (hs : storageGetList ≠ .error .resourceExpired) :
    mockCacheDelegatorGetList true (.error .resourceExpired) storageGetList =
      (storageGetList, true) ∧
    (mockCacheDelegatorGetList true (.error .resourceExpired) storageGetList).1 ≠
      .error .resourceExpired ∧
    (∀ cacherGetList : Except StorageError Unit,
      (mockCacheDelegatorGetList false cacherGetList storageGetList).2 = false) ∧
    mockCacheDelegatorGetList false (.error .resourceExpired) storageGetList =
      (.error .resourceExpired, false) := by
  have hfall : mockCacheDelegatorGetList true (.error .resourceExpired) storageGetList =
      (storageGetList, true) := by
    show (if StorageError.resourceExpired.isResourceExpired = true ∧ true = true
          then (storageGetList, true)
          else ((Except.error StorageError.resourceExpired : Except StorageError Unit),
                false)) = (storageGetList, true)
    rw [if_pos ⟨rfl, rfl⟩]
  refine ⟨hfall, ?_, ?_, ?_⟩
  · rw [hfall]
    exact hs
  · intro c
    cases c with
    | error e =>
        show (if e.isResourceExpired = true ∧ false = true
              then (storageGetList, true)
              else ((Except.error e : Except StorageError Unit), false)).2 = false
        rw [if_neg (fun hp => Bool.noConfusion hp.2)]
    | ok u => rfl
  · show (if StorageError.resourceExpired.isResourceExpired = true ∧ false = true
          then (storageGetList, true)
          else ((Except.error StorageError.resourceExpired : Except StorageError Unit),
                false)) = (.error .resourceExpired, false)
    rw [if_neg (fun hp => Bool.noConfusion hp.2)]

/-- Witness for C8: with the feature enabled, a ResourceExpired answer from
the cacher and a successful store, the delegator calls the store and the
caller sees success. -/
theorem c8_witness :
    ((Except.ok () : Except StorageError Unit) ≠ .error .resourceExpired) ∧
    mockCacheDelegatorGetList true (.error .resourceExpired) (.ok ()) =
      (.ok (), true) :=
  ⟨by decide, (c8_fallback (.ok ()) (by decide)).1⟩

/-- C9: on every well-formed reachable cache state, a successful
`EventsSince(R)` yields only events with revision strictly above R, in
strictly increasing revision order. -/
theorem c9_events_ordered (capacity : Nat) (ops : List Op) (R : Nat)
    (l : List watchCacheEvent)
    (hcap : 0 < capacity)
    (hwf : List.Chain (· < ·) 0 (ops.map opRev))
    (hok : eventsSince (execOps capacity ops) R = .ok l) :
    (∀ e ∈ l, R < e.resourceVersion) ∧
    List.Pairwise (· < ·) (l.map (fun e => e.resourceVersion)) := by
  have hinv := cacheInv_execOps capacity ops hcap hwf
  have hl := eventsSince_ok_eq _ _ _ hok
  subst hl
  constructor
  · exact mem_dropWhile_lt R _ hinv.sorted
  · exact hinv.sorted.sublist ((List.dropWhile_sublist _).map _)

/-- The `TestEvents` prefix: Add(rev3), Update(rev4), Update(rev5) on a
capacity-5 ring. -/
def testEventsOps : List Op :=
  [Op.add (makeTestPod "pod" 3), Op.update (makeTestPod "pod" 4),
   Op.update (makeTestPod "pod" 5)]

/-- Witness for C9 at the `TestEvents` scenario: `EventsSince(3)` returns the
revision-4 and revision-5 events, all above 3 and strictly increasing. -/
theorem c9_witness :
    (0 < 5 ∧ List.Chain (· < ·) 0 (testEventsOps.map opRev) ∧
     eventsSince (execOps 5 testEventsOps) 3 =
       .ok [{ eventType := .modified, object := makeTestPod "pod" 4,
              prevObject := some (makeTestPod "pod" 3), key := "prefix/ns/pod",
              resourceVersion := 4 },
            { eventType := .modified, object := makeTestPod "pod" 5,
              prevObject := some (makeTestPod "pod" 4), key := "prefix/ns/pod",
              resourceVersion := 5 }]) ∧
    ((∀ e ∈ [({ eventType := .modified, object := makeTestPod "pod" 4,
                prevObject := some (makeTestPod "pod" 3), key := "prefix/ns/pod",
                resourceVersion := 4 } : watchCacheEvent),
              { eventType := .modified, object := makeTestPod "pod" 5,
                prevObject := some (makeTestPod "pod" 4), key := "prefix/ns/pod",
                resourceVersion := 5 }], 3 < e.resourceVersion) ∧
     List.Pairwise (· < ·)
       (([({ eventType := .modified, object := makeTestPod "pod" 4,
             prevObject := some (makeTestPod "pod" 3), key := "prefix/ns/pod",
             resourceVersion := 4 } : watchCacheEvent),
           { eventType := .modified, object := makeTestPod "pod" 5,
             prevObject := some (makeTestPod "pod" 4), key := "prefix/ns/pod",
             resourceVersion := 5 }]).map (fun e => e.resourceVersion))) :=
  ⟨⟨by decide, chain_of_revsAscending 0 (testEventsOps.map opRev) (by decide),
    by decide⟩,
   c9_events_ordered 5 testEventsOps 3 _ (by decide)
     (chain_of_revsAscending 0 (testEventsOps.map opRev) (by decide)) (by decide)⟩

/-- C10 counterexample: an Add for a key already present in the snapshot
(Add rev1 then Add rev2 of the same pod) yields an Added event whose
PrevObject is the previously stored object, not nil. -/
theorem c10_counterexample :
    eventsSince (execOps 5 doubleAddOps) 1 =
      .ok [{ eventType := .added, object := makeTestPod "pod" 2,
             prevObject := some (makeTestPod "pod" 1), key := "prefix/ns/pod",
             resourceVersion := 2 }] ∧
    ({ eventType := WatchEventType.added, object := makeTestPod "pod" 2,
       prevObject := some (makeTestPod "pod" 1), key := "prefix/ns/pod",
       resourceVersion := 2 } : watchCacheEvent).prevObject ≠ none :=
  ⟨by decide, by decide⟩

/-- C10 (amended): every processed notification appends exactly the event
built against the pre-mutation snapshot; that event carries no previous
object when its key was absent (in particular for an Added event of a fresh
key), and carries the stored object from immediately before the change when
the key was present (in particular for every Modified and Deleted event, and
for an Added event overwriting an existing key). -/
theorem c10_amended (s : watchCache) (t : WatchEventType) (p : Pod) :
    (processOp s t p).cache.getLast? = some (eventFor s t p) ∧
    (storeLookup s.store (podKey p) = none → (eventFor s t p).prevObject = none) ∧
    (∀ e, storeLookup s.store (podKey p) = some e →
      (eventFor s t p).prevObject = some e.object) := by
  refine ⟨?_, ?_, ?_⟩
  · rw [processOp_cache]
    unfold appendEvent
    split
    · exact List.getLast?_concat _
    · exact List.getLast?_concat _
  · intro h
    show (storeLookup s.store (podKey p)).map (fun e => e.object) = none
    rw [h]
    rfl
  · intro e h
    show (storeLookup s.store (podKey p)).map (fun e => e.object) = some e.object
    rw [h]
    rfl

/-- Witness for C10 (amended): adding a pod to the empty cache yields an
Added event with no previous object. -/
theorem c10_witness :
    storeLookup (initialCache 3).store (podKey (makeTestPod "pod" 1)) = none ∧
    (eventFor (initialCache 3) .added (makeTestPod "pod" 1)).prevObject = none :=
  ⟨rfl, (c10_amended (initialCache 3) .added (makeTestPod "pod" 1)).2.1 rfl⟩

end WatchCacheSpec
